import Mathlib

/-!
# Verification of the bf-rs IR/execution pipeline

This file embeds the core of the `bf-rs` Brainfuck interpreter suite in
Lean 4 and proves properties of the peephole tree interpreter, the flat
bytecode compiler (`src/flat/compiler.rs`), the flat/bytecode dispatcher
(`src/flat/interpreter.rs`, `src/bytecode/interpreter.rs`), and the x86-64
JIT emitter (`src/jit/compiler.rs`).

Machine integers (`usize` counts, `u8` cells) are embedded as `Nat` with
explicit `% 256` where the code wraps.  The tape-state module (`state.rs`)
and the common instruction alphabet (`common`) are not among the provided
sources, so they are modelled from the specification, as marked on each
definition.
-/

namespace BfRs

/-- Modelled from the spec (§7, `common` module not in the sources):
the runtime error kind produced when a head movement or offset-add
crosses the tape bounds. -/
inductive Error where
  | PointerUnderflow
  | PointerOverflow
deriving DecidableEq, Repr

/-- Modelled from the spec (§3, `common` module not in the sources):
the composite instruction alphabet shared by the peephole IR and the
flat bytecode.  Counts and jump addresses are pointer-width unsigned
integers, embedded as `Nat`; the `Add` delta wraps mod 256 at use sites. -/
inductive Instruction where
  | Left (n : Nat)
  | Right (n : Nat)
  | Add (d : Nat)
  | In
  | Out
  | JumpZero (a : Nat)
  | JumpNotZero (a : Nat)
  | SetZero
  | OffsetAddRight (k : Nat)
  | OffsetAddLeft (k : Nat)
  | FindZeroRight (k : Nat)
  | FindZeroLeft (k : Nat)
deriving DecidableEq, Repr

/-- Modelled from the spec (§3; `peephole/mod.rs` not in the sources):
a peephole-IR statement is a non-loop instruction or a loop with a body. -/
inductive Statement where
  | Instr (i : Instruction)
  | Loop (body : List Statement)
deriving Repr

/-- Modelled from the spec (§3, `state.rs` not in the sources): the tape
state, a fixed-capacity byte buffer (`tape.length` is the capacity) and a
head index. -/
structure State where
  tape : List Nat
  head : Nat
deriving DecidableEq, Repr

namespace State

/-- Modelled from the spec: read the current cell. -/
def load (s : State) : Nat := s.tape.getD s.head 0

/-- Modelled from the spec: store a byte in the current cell. -/
def store (s : State) (v : Nat) : State := { s with tape := s.tape.set s.head v }

/-- Modelled from the spec: `cell ← (cell + d) mod 256`. -/
def up (s : State) (d : Nat) : State := s.store ((s.load + d) % 256)

/-- Modelled from the spec: move the head left by `n`; fails with
`PointerUnderflow` when the move crosses the low end of the tape. -/
def left (s : State) (n : Nat) : Except Error State :=
  if s.head < n then .error .PointerUnderflow
  else .ok { s with head := s.head - n }

/-- Modelled from the spec: move the head right by `n`; fails with
`PointerOverflow` when the move crosses the high end of the tape. -/
def right (s : State) (n : Nat) : Except Error State :=
  if s.head + n ≥ s.tape.length then .error .PointerOverflow
  else .ok { s with head := s.head + n }

/-- Modelled from the spec: `cell[+k] ← (cell[+k] + v) mod 256`, failing
with `PointerOverflow` when `head + k` is out of the tape range. -/
def up_pos_offset (s : State) (k v : Nat) : Except Error State :=
  if s.head + k ≥ s.tape.length then .error .PointerOverflow
  else .ok { s with tape := s.tape.set (s.head + k) ((s.tape.getD (s.head + k) 0 + v) % 256) }

/-- Modelled from the spec: `cell[-k] ← (cell[-k] + v) mod 256`, failing
with `PointerUnderflow` when `head - k` is out of the tape range. -/
def up_neg_offset (s : State) (k v : Nat) : Except Error State :=
  if s.head < k then .error .PointerUnderflow
  else .ok { s with tape := s.tape.set (s.head - k) ((s.tape.getD (s.head - k) 0 + v) % 256) }

/-- Unpacking a successful `right`: the head advances by `n` within
bounds and the tape is unchanged. -/
theorem right_ok {s s' : State} {n : Nat} (h : s.right n = .ok s') :
    s'.head = s.head + n ∧ s'.tape = s.tape ∧ s.head + n < s.tape.length := by
  simp only [State.right] at h
  split at h
  · exact absurd h (by simp)
  · rename_i hlt
    cases h
    simp only [not_le] at hlt
    exact ⟨rfl, rfl, hlt⟩

/-- Unpacking a successful `left`: the head retreats by `n` without
crossing zero and the tape is unchanged. -/
theorem left_ok {s s' : State} {n : Nat} (h : s.left n = .ok s') :
    s'.head = s.head - n ∧ s'.tape = s.tape ∧ n ≤ s.head := by
  simp only [State.left] at h
  split at h
  · exact absurd h (by simp)
  · rename_i hlt
    cases h
    simp only [not_lt] at hlt
    exact ⟨rfl, rfl, hlt⟩

end State

/-- A machine configuration: the tape state plus the remaining input byte
stream and the output bytes written so far (the `R`/`W` streams of the
interpreters). -/
structure Config where
  state : State
  inp : List Nat
  out : List Nat
deriving DecidableEq, Repr

/-- The current cell of a configuration. -/
def Config.load (c : Config) : Nat := c.state.load

/-- Modelled from the spec (§4.5, `state.rs` not in the sources): `In`
reads one byte into the current cell, storing 0 on EOF. -/
def Config.read (c : Config) : Config :=
  { c with state := c.state.store (c.inp.headD 0), inp := c.inp.tail }

/-- Modelled from the spec (`state.rs` not in the sources): `Out` writes
the current cell as one byte to the output stream. -/
def Config.write (c : Config) : Config :=
  { c with out := c.out ++ [c.state.load] }

/-- The result of a finished interpretation: normal completion, a runtime
error (carrying the configuration at the error, whose output stream has
already been written), or a panic (the `panic!` arm of the tree
interpreters). -/
inductive Res where
  | ok (c : Config)
  | err (e : Error) (c : Config)
  | panic (c : Config)
deriving DecidableEq, Repr

/-- `while state.load() != 0 { state.right(offset)?; }`
(`FindZeroRight` arm of `peephole/interpreter.rs` and
`flat/interpreter.rs`).  Returns `none` when the source loop diverges,
which happens exactly when the cell is non-zero and `offset = 0` (a
successful `right 0` leaves the state unchanged); otherwise each
iteration strictly increases the head, bounded by the tape length. -/
def findZeroRight (s : State) (offset : Nat) : Option (Except Error State) :=
  if s.load = 0 then some (.ok s)
  else
    match h : s.right offset with
    | .error e => some (.error e)
    | .ok s' =>
      if h0 : offset = 0 then none
      else findZeroRight s' offset
termination_by s.tape.length - s.head
decreasing_by
  obtain ⟨h1, h2, h3⟩ := State.right_ok h
  rw [h2]
  omega

/-- `while state.load() != 0 { state.left(offset)?; }`
(`FindZeroLeft` arm).  Diverges (`none`) exactly when the cell is
non-zero and `offset = 0`; otherwise each iteration strictly decreases
the head. -/
def findZeroLeft (s : State) (offset : Nat) : Option (Except Error State) :=
  if s.load = 0 then some (.ok s)
  else
    match h : s.left offset with
    | .error e => some (.error e)
    | .ok s' =>
      if h0 : offset = 0 then none
      else findZeroLeft s' offset
termination_by s.head
decreasing_by
  obtain ⟨h1, h2, h3⟩ := State.left_ok h
  omega

/-- One instruction of the peephole tree interpreter
(`interpret_instruction` in `peephole/interpreter.rs`, non-`Loop` arms).
`none` marks divergence of a `FindZero*` inner loop; `JumpZero` /
`JumpNotZero` hit the `panic!("unexpected jump instruction")` arm. -/
def interpInstr (i : Instruction) (c : Config) : Option Res :=
  match i with
  | .Left n =>
    match c.state.left n with
    | .ok s => some (.ok { c with state := s })
    | .error e => some (.err e c)
  | .Right n =>
    match c.state.right n with
    | .ok s => some (.ok { c with state := s })
    | .error e => some (.err e c)
  | .Add d => some (.ok { c with state := c.state.up d })
  | .In => some (.ok c.read)
  | .Out => some (.ok c.write)
  | .SetZero => some (.ok { c with state := c.state.store 0 })
  | .OffsetAddRight k =>
    let value := c.state.load
    if value ≠ 0 then
      match (c.state.store 0).up_pos_offset k value with
      | .ok s => some (.ok { c with state := s })
      | .error e => some (.err e { c with state := c.state.store 0 })
    else some (.ok c)
  | .OffsetAddLeft k =>
    let value := c.state.load
    if value ≠ 0 then
      match (c.state.store 0).up_neg_offset k value with
      | .ok s => some (.ok { c with state := s })
      | .error e => some (.err e { c with state := c.state.store 0 })
    else some (.ok c)
  | .FindZeroRight k =>
    match findZeroRight c.state k with
    | none => none
    | some (.ok s) => some (.ok { c with state := s })
    | some (.error e) => some (.err e c)
  | .FindZeroLeft k =>
    match findZeroLeft c.state k with
    | none => none
    | some (.ok s) => some (.ok { c with state := s })
    | some (.error e) => some (.err e c)
  | .JumpZero _ => some (.panic c)
  | .JumpNotZero _ => some (.panic c)

mutual

/-- The peephole tree interpreter on one statement (`interpret_instruction`
in `peephole/interpreter.rs`): a `Loop` re-runs its body while the current
cell is non-zero.  The fuel bounds the number of loop unfoldings; `none`
is returned when it runs out (or an inner `FindZero*` diverges). -/
def interpStmtF : Nat → Statement → Config → Option Res
  | 0, _, _ => none
  | _ + 1, .Instr i, c => interpInstr i c
  | f + 1, .Loop body, c =>
    if c.load ≠ 0 then
      match interpListF f body c with
      | some (.ok c') => interpStmtF f (.Loop body) c'
      | r => r
    else some (.ok c)
termination_by f s _ => (f, sizeOf s)

/-- The peephole tree interpreter on a statement list (`interpret` in
`peephole/interpreter.rs`): statements run in order, the first
non-`ok` outcome aborting the rest. -/
def interpListF : Nat → List Statement → Config → Option Res
  | _, [], c => some (.ok c)
  | f, s :: rest, c =>
    match interpStmtF f s c with
    | some (.ok c') => interpListF f rest c'
    | r => r
termination_by f l _ => (f, sizeOf l)

end

mutual

/-- The flat bytecode compiler (`Compiler::compile` in
`flat/compiler.rs`), with the position `p` of the next emitted
instruction passed explicitly (the imperative compiler reads it off the
growing instruction vector).  A `Loop(body)` emits a `JumpZero` at
`begin_pc = p` whose back-patched target is `end_pc` (the index of the
closing `JumpNotZero`), the body, and a `JumpNotZero begin_pc`. -/
def compileStmt (p : Nat) : Statement → List Instruction
  | .Instr i => [i]
  | .Loop body =>
    let b := compileList (p + 1) body
    .JumpZero (p + 1 + b.length) :: b ++ [.JumpNotZero p]

/-- Sequential emission of a statement list (`flat/compiler.rs`). -/
def compileList (p : Nat) : List Statement → List Instruction
  | [] => []
  | s :: rest =>
    let c := compileStmt p s
    c ++ compileList (p + c.length) rest

end

/-- `flat::compile`: compile a peephole program to flat bytecode starting
at index 0. -/
def compile (src : List Statement) : List Instruction := compileList 0 src

/-- One iteration of the flat dispatcher loop (`interpret` in
`flat/interpreter.rs` / `bytecode/interpreter.rs`) at a valid `pc`:
either continue at a new `pc` with a new configuration (`Sum.inl`) or
abort with a runtime error (`Sum.inr`); `none` marks divergence of a
`FindZero*` inner loop.  A taken `JumpZero`/`JumpNotZero` sets
`pc ← address`, and the unconditional `pc += 1` at the bottom of the
loop body is applied in every non-error case. -/
def stepF (i : Instruction) (pc : Nat) (c : Config) :
    Option ((Nat × Config) ⊕ (Error × Config)) :=
  match i with
  | .Left n =>
    match c.state.left n with
    | .ok s => some (.inl (pc + 1, { c with state := s }))
    | .error e => some (.inr (e, c))
  | .Right n =>
    match c.state.right n with
    | .ok s => some (.inl (pc + 1, { c with state := s }))
    | .error e => some (.inr (e, c))
  | .Add d => some (.inl (pc + 1, { c with state := c.state.up d }))
  | .In => some (.inl (pc + 1, c.read))
  | .Out => some (.inl (pc + 1, c.write))
  | .JumpZero a =>
    some (.inl ((if c.load = 0 then a else pc) + 1, c))
  | .JumpNotZero a =>
    some (.inl ((if c.load ≠ 0 then a else pc) + 1, c))
  | .SetZero => some (.inl (pc + 1, { c with state := c.state.store 0 }))
  | .OffsetAddRight k =>
    if c.load ≠ 0 then
      let value := c.state.load
      match (c.state.store 0).up_pos_offset k value with
      | .ok s => some (.inl (pc + 1, { c with state := s }))
      | .error e => some (.inr (e, { c with state := c.state.store 0 }))
    else some (.inl (pc + 1, c))
  | .OffsetAddLeft k =>
    if c.load ≠ 0 then
      let value := c.state.load
      match (c.state.store 0).up_neg_offset k value with
      | .ok s => some (.inl (pc + 1, { c with state := s }))
      | .error e => some (.inr (e, { c with state := c.state.store 0 }))
    else some (.inl (pc + 1, c))
  | .FindZeroRight k =>
    match findZeroRight c.state k with
    | none => none
    | some (.ok s) => some (.inl (pc + 1, { c with state := s }))
    | some (.error e) => some (.inr (e, c))
  | .FindZeroLeft k =>
    match findZeroLeft c.state k with
    | none => none
    | some (.ok s) => some (.inl (pc + 1, { c with state := s }))
    | some (.error e) => some (.inr (e, c))

/-- The flat dispatcher (`interpret` in `flat/interpreter.rs` /
`bytecode/interpreter.rs`): run from `pc` until `pc ≥ P.length`
(normal halt) or a runtime error, spending one unit of fuel per
dispatched instruction; `none` when the fuel runs out or an inner
`FindZero*` diverges.  The dispatcher has no `panic!` arm: every
opcode, including the jumps, is handled. -/
def flatRunF (f : Nat) (P : List Instruction) (pc : Nat) (c : Config) : Option Res :=
  if h : pc < P.length then
    match f with
    | 0 => none
    | f + 1 =>
      match stepF (P.get ⟨pc, h⟩) pc c with
      | none => none
      | some (.inl (pc', c')) => flatRunF f P pc' c'
      | some (.inr (e, c')) => some (.err e c')
  else some (.ok c)

mutual

/-- A statement is jump-free when no `JumpZero`/`JumpNotZero` occurs in
it, at any loop depth. -/
def jumpFreeS : Statement → Bool
  | .Instr (.JumpZero _) => false
  | .Instr (.JumpNotZero _) => false
  | .Instr _ => true
  | .Loop body => jumpFreeL body

/-- A statement list is jump-free when each statement is. -/
def jumpFreeL : List Statement → Bool
  | [] => true
  | s :: rest => jumpFreeS s && jumpFreeL rest

end

mutual

/-- The number of flat instructions emitted for one statement. -/
def sizeS : Statement → Nat
  | .Instr _ => 1
  | .Loop body => sizeL body + 2

/-- The number of flat instructions emitted for a statement list. -/
def sizeL : List Statement → Nat
  | [] => 0
  | s :: rest => sizeS s + sizeL rest

end

/-- Mutual structural induction for statements and statement lists,
derived from the nested recursor. -/
theorem statement_mutual_ind {P : Statement → Prop} {Q : List Statement → Prop}
    (hi : ∀ i, P (.Instr i))
    (hl : ∀ body, Q body → P (.Loop body))
    (hn : Q [])
    (hc : ∀ s rest, P s → Q rest → Q (s :: rest)) :
    (∀ s, P s) ∧ (∀ l, Q l) := by
  have hs : ∀ s, P s := fun s => Statement.rec hi hl hn hc s
  refine ⟨hs, fun l => ?_⟩
  induction l with
  | nil => exact hn
  | cons s rest ih => exact hc s rest (hs s) ih

/-- The compiled code of a statement has `sizeS` instructions (and of a
list, `sizeL`), independently of the emission position. -/
theorem compile_length :
    (∀ s, ∀ p, (compileStmt p s).length = sizeS s) ∧
    (∀ l, ∀ p, (compileList p l).length = sizeL l) := by
  apply statement_mutual_ind
  · intro i p; rfl
  · intro body ih p
    simp [compileStmt, sizeS, ih]
    try omega
  · intro p; rfl
  · intro s rest ihs ihr p
    simp [compileList, sizeL, ihs, ihr]

/-- `code` occupies positions `p, p+1, …` of the bytecode program `P`. -/
def codeAt (P : List Instruction) (p : Nat) (code : List Instruction) : Prop :=
  ∀ i < code.length, P[p + i]? = code[i]?

theorem codeAt_append {P : List Instruction} {p : Nat} {a b : List Instruction}
    (h : codeAt P p (a ++ b)) : codeAt P p a ∧ codeAt P (p + a.length) b := by
  constructor
  · intro i hi
    have := h i (by simp; omega)
    rwa [List.getElem?_append, if_pos hi] at this
  · intro i hi
    have := h (a.length + i) (by simp; omega)
    rw [List.getElem?_append, if_neg (by omega)] at this
    simpa [Nat.add_assoc, Nat.add_sub_cancel_left] using this

theorem codeAt_cons {P : List Instruction} {p : Nat} {x : Instruction}
    {rest : List Instruction} (h : codeAt P p (x :: rest)) :
    P[p]? = some x ∧ codeAt P (p + 1) rest := by
  have h0 := h 0 (by simp)
  constructor
  · simpa using h0
  · intro i hi
    have := h (i + 1) (by simp; omega)
    simpa [Nat.add_comm, Nat.add_left_comm, Nat.add_assoc] using this

theorem codeAt_head_lt {P : List Instruction} {p : Nat} {x : Instruction}
    {rest : List Instruction} (h : codeAt P p (x :: rest)) : p < P.length := by
  have := (codeAt_cons h).1
  exact (List.getElem?_eq_some.mp this).1

/-- `n` consecutive continue-steps of the flat dispatcher. -/
inductive StepsN (P : List Instruction) : Nat → (Nat × Config) → (Nat × Config) → Prop
  | zero (x : Nat × Config) : StepsN P 0 x x
  | succ {pc : Nat} {c : Config} {i : Instruction} {y z : Nat × Config} {n : Nat}
      (hP : P[pc]? = some i) (hs : stepF i pc c = some (.inl y))
      (ht : StepsN P n y z) : StepsN P (n + 1) (pc, c) z

theorem StepsN.trans {P : List Instruction} {n m : Nat} {x y z : Nat × Config}
    (h1 : StepsN P n x y) (h2 : StepsN P m y z) : StepsN P (n + m) x z := by
  induction h1 with
  | zero => simpa using h2
  | succ hP hs _ ih =>
    rw [Nat.add_right_comm]
    exact StepsN.succ hP hs (ih h2)


theorem flatRunF_halt {f : Nat} {P : List Instruction} {pc : Nat} {c : Config}
    (h : P.length ≤ pc) : flatRunF f P pc c = some (.ok c) := by
  rw [flatRunF]
  simp [Nat.not_lt.mpr h]

theorem flatRunF_zero {P : List Instruction} {pc : Nat} {c : Config}
    (h : pc < P.length) : flatRunF 0 P pc c = none := by
  rw [flatRunF]
  simp [h]

theorem get_of_getElem? {P : List Instruction} {pc : Nat} {i : Instruction}
    (hP : P[pc]? = some i) : ∃ h : pc < P.length, P[pc] = i := by
  obtain ⟨h, hv⟩ := List.getElem?_eq_some.mp hP
  exact ⟨h, hv⟩

theorem flatRunF_cont {f : Nat} {P : List Instruction} {pc pc' : Nat} {c c' : Config}
    {i : Instruction} (hP : P[pc]? = some i)
    (hs : stepF i pc c = some (.inl (pc', c'))) :
    flatRunF (f + 1) P pc c = flatRunF f P pc' c' := by
  obtain ⟨h, hg⟩ := get_of_getElem? hP
  rw [flatRunF]
  simp [h, hg, hs]

theorem flatRunF_err {f : Nat} {P : List Instruction} {pc : Nat} {c c' : Config}
    {e : Error} {i : Instruction} (hP : P[pc]? = some i)
    (hs : stepF i pc c = some (.inr (e, c'))) :
    flatRunF (f + 1) P pc c = some (.err e c') := by
  obtain ⟨h, hg⟩ := get_of_getElem? hP
  rw [flatRunF]
  simp [h, hg, hs]

theorem flatRunF_stuck {f : Nat} {P : List Instruction} {pc : Nat} {c : Config}
    {i : Instruction} (hP : P[pc]? = some i) (hs : stepF i pc c = none) :
    flatRunF f P pc c = none := by
  obtain ⟨h, hg⟩ := get_of_getElem? hP
  rw [flatRunF]
  cases f <;> simp [h, hg, hs]

/-- Fuel monotonicity of the flat dispatcher. -/
theorem flatRunF_mono {f g : Nat} {P : List Instruction} {pc : Nat} {c : Config}
    {r : Res} (hfg : f ≤ g) (h : flatRunF f P pc c = some r) :
    flatRunF g P pc c = some r := by
  induction f generalizing pc c g with
  | zero =>
    by_cases hpc : pc < P.length
    · rw [flatRunF_zero hpc] at h; exact absurd h (by simp)
    · rw [flatRunF_halt (Nat.not_lt.mp hpc)] at h ⊢; exact h
  | succ f ih =>
    by_cases hpc : pc < P.length
    · obtain ⟨g', rfl⟩ : ∃ g', g = g' + 1 := ⟨g - 1, by omega⟩
      rw [flatRunF] at h ⊢
      simp only [hpc, dite_true, reduceDIte] at h ⊢
      match hs : stepF (P.get ⟨pc, hpc⟩) pc c with
      | none => rw [hs] at h; exact Option.noConfusion h
      | some (.inl (pc', c')) => rw [hs] at h; exact ih (by omega) h
      | some (.inr (e, c')) => rw [hs] at h; exact h
    · rw [flatRunF_halt (Nat.not_lt.mp hpc)] at h ⊢; exact h

/-- `none` (fuel exhaustion or divergence) is downward closed in fuel. -/
theorem flatRunF_none_mono {f g : Nat} {P : List Instruction} {pc : Nat}
    {c : Config} (hfg : g ≤ f) (h : flatRunF f P pc c = none) :
    flatRunF g P pc c = none := by
  match hr : flatRunF g P pc c with
  | none => rfl
  | some r => rw [flatRunF_mono hfg hr] at h; exact absurd h (by simp)

/-- Transporting a flat run across a chain of continue-steps. -/
theorem flatRunF_of_stepsN {P : List Instruction} {n : Nat} {x y : Nat × Config}
    (h : StepsN P n x y) (f : Nat) :
    flatRunF (n + f) P x.1 x.2 = flatRunF f P y.1 y.2 := by
  induction h with
  | zero => simp
  | succ hP hs _ ih =>
    rw [Nat.add_right_comm, flatRunF_cont hP hs]
    exact ih

/-- A flat run with less fuel than a pending chain of continue-steps is
still running (`none`). -/
theorem stepsN_none {P : List Instruction} {n : Nat} {x y : Nat × Config}
    (h : StepsN P n x y) {f : Nat} (hf : f < n) :
    flatRunF f P x.1 x.2 = none := by
  induction h generalizing f with
  | zero => omega
  | succ hP hs _ ih =>
    match f with
    | 0 => exact flatRunF_zero (get_of_getElem? hP).1
    | f + 1 =>
      rw [flatRunF_cont hP hs]
      exact ih (by omega)

/-- An instruction other than `JumpZero`/`JumpNotZero`. -/
def nonJump : Instruction → Bool
  | .JumpZero _ => false
  | .JumpNotZero _ => false
  | _ => true

theorem jumpFreeS_instr {i : Instruction} : jumpFreeS (.Instr i) = nonJump i := by
  cases i <;> rfl

/-- On every non-jump opcode the flat dispatcher arm computes exactly
what the tree interpreter arm computes: same divergence, same successor
configuration (with `pc + 1`), same error with the same configuration. -/
theorem stepF_nonjump {i : Instruction} {pc : Nat} {c : Config}
    (hnj : nonJump i = true) :
    stepF i pc c = (interpInstr i c).map fun r =>
      match r with
      | .ok c' => .inl (pc + 1, c')
      | .err e c' => .inr (e, c')
      | .panic c' => .inl (pc + 1, c') := by
  cases i with
  | Left n =>
    simp only [stepF, interpInstr]
    cases c.state.left n <;> simp
  | Right n =>
    simp only [stepF, interpInstr]
    cases c.state.right n <;> simp
  | Add d => rfl
  | In => rfl
  | Out => rfl
  | SetZero => rfl
  | OffsetAddRight k =>
    simp only [stepF, interpInstr]
    by_cases h0 : c.load = 0
    · have : c.state.load = 0 := h0
      simp [h0, this]
    · have : ¬ c.state.load = 0 := h0
      simp only [h0, this, if_neg, ite_not, if_true, if_false]
      cases (c.state.store 0).up_pos_offset k c.state.load <;> simp [h0, this]
  | OffsetAddLeft k =>
    simp only [stepF, interpInstr]
    by_cases h0 : c.load = 0
    · have : c.state.load = 0 := h0
      simp [h0, this]
    · have : ¬ c.state.load = 0 := h0
      simp only [h0, this, if_neg, ite_not, if_true, if_false]
      cases (c.state.store 0).up_neg_offset k c.state.load <;> simp [h0, this]
  | FindZeroRight k =>
    simp only [stepF, interpInstr]
    match findZeroRight c.state k with
    | none => simp
    | some (.ok s) => simp
    | some (.error e) => simp
  | FindZeroLeft k =>
    simp only [stepF, interpInstr]
    match findZeroLeft c.state k with
    | none => simp
    | some (.ok s) => simp
    | some (.error e) => simp
  | JumpZero a => exact absurd hnj (by simp [nonJump])
  | JumpNotZero a => exact absurd hnj (by simp [nonJump])

/-- The target of a simulated tree outcome `r`, for the flat machine
sitting at `(p, c)` with block exit address `exit`: an `ok` reaches the
exit, an `err` reaches an erroring step with the same error and
configuration, and a `panic` never arises. -/
def SimOut (P : List Instruction) (p : Nat) (c : Config) (exit : Nat) : Res → Prop
  | .ok c' => ∃ n, StepsN P n (p, c) (exit, c')
  | .err e c' => ∃ n q cq i, StepsN P n (p, c) (q, cq) ∧ P[q]? = some i ∧
      stepF i q cq = some (.inr (e, c'))
  | .panic _ => False

theorem SimOut.comp {P : List Instruction} {n : Nat} {p q : Nat} {c cq : Config}
    {exit : Nat} {r : Res} (h1 : StepsN P n (p, c) (q, cq))
    (h2 : SimOut P q cq exit r) : SimOut P p c exit r := by
  cases r with
  | ok c' =>
    obtain ⟨m, hm⟩ := h2
    exact ⟨n + m, h1.trans hm⟩
  | err e c' =>
    obtain ⟨m, q', cq', i, hm, hPi, hstep⟩ := h2
    exact ⟨n + m, q', cq', i, h1.trans hm, hPi, hstep⟩
  | panic c' => exact h2

/-- A non-jump instruction never reaches the `panic!` arm. -/
theorem interpInstr_no_panic {i : Instruction} {c c' : Config}
    (hnj : nonJump i = true) : interpInstr i c ≠ some (.panic c') := by
  cases i with
  | Left n => simp only [interpInstr]; cases c.state.left n <;> simp
  | Right n => simp only [interpInstr]; cases c.state.right n <;> simp
  | Add d => simp [interpInstr]
  | In => simp [interpInstr]
  | Out => simp [interpInstr]
  | SetZero => simp [interpInstr]
  | OffsetAddRight k =>
    simp only [interpInstr]
    by_cases h0 : c.state.load = 0
    · simp [h0]
    · simp only [h0, ite_not, if_false, if_true]
      cases (c.state.store 0).up_pos_offset k c.state.load <;> simp
  | OffsetAddLeft k =>
    simp only [interpInstr]
    by_cases h0 : c.state.load = 0
    · simp [h0]
    · simp only [h0, ite_not, if_false, if_true]
      cases (c.state.store 0).up_neg_offset k c.state.load <;> simp
  | FindZeroRight k =>
    simp only [interpInstr]
    match findZeroRight c.state k with
    | none => simp
    | some (.ok s) => simp
    | some (.error e) => simp
  | FindZeroLeft k =>
    simp only [interpInstr]
    match findZeroLeft c.state k with
    | none => simp
    | some (.ok s) => simp
    | some (.error e) => simp
  | JumpZero a => exact absurd hnj (by simp [nonJump])
  | JumpNotZero a => exact absurd hnj (by simp [nonJump])

/-- Forward simulation for one statement: a tree run of `s` compiled at
`p` is matched by the flat machine from `p` to `p + sizeS s`. -/
def FwdS (f : Nat) : Prop :=
  ∀ s c r P p, jumpFreeS s = true → codeAt P p (compileStmt p s) →
    interpStmtF f s c = some r → SimOut P p c (p + sizeS s) r

/-- Forward simulation for a loop whose flat counterpart is entered at
its closing `JumpNotZero` (address `p + 1 + sizeL body`). -/
def FwdLoop (f : Nat) : Prop :=
  ∀ body c r P p, jumpFreeL body = true → codeAt P p (compileStmt p (.Loop body)) →
    interpStmtF f (.Loop body) c = some r →
    SimOut P (p + 1 + sizeL body) c (p + sizeS (.Loop body)) r

/-- Forward simulation for statement lists. -/
def FwdL (f : Nat) : Prop :=
  ∀ l c r P p, jumpFreeL l = true → codeAt P p (compileList p l) →
    interpListF f l c = some r → SimOut P p c (p + sizeL l) r

/-- Layout of a compiled loop: opening `JumpZero` at `p` targeting the
closing `JumpNotZero` at `p + 1 + sizeL body`, whose own target is `p`,
with the body code at `p + 1`. -/
theorem loop_layout {P : List Instruction} {p : Nat} {body : List Statement}
    (hcode : codeAt P p (compileStmt p (.Loop body))) :
    P[p]? = some (.JumpZero (p + 1 + sizeL body)) ∧
    codeAt P (p + 1) (compileList (p + 1) body) ∧
    P[p + 1 + sizeL body]? = some (.JumpNotZero p) := by
  have hBlen : (compileList (p + 1) body).length = sizeL body :=
    compile_length.2 body (p + 1)
  rw [compileStmt] at hcode
  obtain ⟨hPz, hrest⟩ := codeAt_cons hcode
  obtain ⟨hB, hlast⟩ := codeAt_append hrest
  rw [hBlen] at hPz hlast
  exact ⟨hPz, hB, (codeAt_cons hlast).1⟩

theorem forward_sim : ∀ f, FwdS f ∧ FwdLoop f ∧ FwdL f := by
  intro f
  induction f using Nat.strong_induction_on with
  | _ f IH =>
  have hS : FwdS f := by
    intro s c r P p hjf hcode hrun
    match f, s with
    | 0, s => rw [interpStmtF] at hrun; exact Option.noConfusion hrun
    | f + 1, .Instr i =>
      rw [interpStmtF] at hrun
      have hnj : nonJump i = true := by rwa [jumpFreeS_instr] at hjf
      have hPi : P[p]? = some i := (codeAt_cons (by rwa [compileStmt] at hcode)).1
      cases r with
      | ok c' =>
        refine ⟨1, .succ hPi ?_ (.zero _)⟩
        rw [stepF_nonjump hnj, hrun]
        rfl
      | err e c' =>
        refine ⟨0, p, c, i, .zero _, hPi, ?_⟩
        rw [stepF_nonjump hnj, hrun]
        rfl
      | panic c' => exact absurd hrun (interpInstr_no_panic hnj)
    | f + 1, .Loop body =>
      obtain ⟨hPz, hB, hPn⟩ := loop_layout hcode
      have hBlen : (compileList (p + 1) body).length = sizeL body :=
        compile_length.2 body (p + 1)
      rw [interpStmtF] at hrun
      by_cases hz : c.load = 0
      · rw [if_neg (by simpa using hz)] at hrun
        cases hrun
        refine ⟨1, ?_⟩
        have hstep : stepF (.JumpZero (p + 1 + sizeL body)) p c =
            some (.inl (p + sizeS (.Loop body), c)) := by
          simp [stepF, hz, sizeS]
          omega
        exact .succ hPz hstep (.zero _)
      · simp only [hz, ne_eq, not_false_eq_true, if_true, ite_true] at hrun
        have hstep1 : stepF (.JumpZero (p + 1 + sizeL body)) p c =
            some (.inl (p + 1, c)) := by
          simp [stepF, hz]
        match hbody : interpListF f body c with
        | none => rw [hbody] at hrun; exact Option.noConfusion hrun
        | some (.ok c₁) =>
          rw [hbody] at hrun
          have hsim1 : SimOut P (p + 1) c (p + 1 + sizeL body) (.ok c₁) :=
            (IH f (by omega)).2.2 body c (.ok c₁) P (p + 1) hjf hB hbody
          obtain ⟨n, hn⟩ := hsim1
          have hsim2 : SimOut P (p + 1 + sizeL body) c₁ (p + sizeS (.Loop body)) r :=
            (IH f (by omega)).2.1 body c₁ r P p hjf hcode hrun
          exact SimOut.comp (StepsN.succ hPz hstep1 hn) hsim2
        | some (.err e c') =>
          rw [hbody] at hrun
          cases hrun
          have hsim1 : SimOut P (p + 1) c (p + 1 + sizeL body) (.err e c') :=
            (IH f (by omega)).2.2 body c (.err e c') P (p + 1) hjf hB hbody
          exact SimOut.comp (StepsN.succ hPz hstep1 (.zero _)) hsim1
        | some (.panic c') =>
          exact absurd ((IH f (by omega)).2.2 body c (.panic c') P (p + 1) hjf hB hbody) id
  have hLoop : FwdLoop f := by
    intro body c r P p hjf hcode hrun
    match f with
    | 0 => rw [interpStmtF] at hrun; exact Option.noConfusion hrun
    | f + 1 =>
      obtain ⟨hPz, hB, hPn⟩ := loop_layout hcode
      rw [interpStmtF] at hrun
      by_cases hz : c.load = 0
      · have hr : r = .ok c := by
          simp [hz] at hrun
          exact hrun.symm
        subst hr
        refine ⟨1, ?_⟩
        have hstep : stepF (.JumpNotZero p) (p + 1 + sizeL body) c =
            some (.inl (p + sizeS (.Loop body), c)) := by
          simp [stepF, hz, sizeS]
          omega
        exact .succ hPn hstep (.zero _)
      · simp only [hz, ne_eq, not_false_eq_true, if_true, ite_true] at hrun
        have hstep1 : stepF (.JumpNotZero p) (p + 1 + sizeL body) c =
            some (.inl (p + 1, c)) := by
          simp [stepF, hz]
        match hbody : interpListF f body c with
        | none => rw [hbody] at hrun; exact Option.noConfusion hrun
        | some (.ok c₁) =>
          rw [hbody] at hrun
          obtain ⟨n, hn⟩ :=
            (IH f (by omega)).2.2 body c (.ok c₁) P (p + 1) hjf hB hbody
          have hsim2 : SimOut P (p + 1 + sizeL body) c₁ (p + sizeS (.Loop body)) r :=
            (IH f (by omega)).2.1 body c₁ r P p hjf hcode hrun
          exact SimOut.comp (StepsN.succ hPn hstep1 hn) hsim2
        | some (.err e c') =>
          rw [hbody] at hrun
          cases hrun
          have hsim1 : SimOut P (p + 1) c (p + 1 + sizeL body) (.err e c') :=
            (IH f (by omega)).2.2 body c (.err e c') P (p + 1) hjf hB hbody
          exact SimOut.comp (StepsN.succ hPn hstep1 (.zero _)) hsim1
        | some (.panic c') =>
          exact absurd ((IH f (by omega)).2.2 body c (.panic c') P (p + 1) hjf hB hbody) id
  have hL : FwdL f := by
    intro l
    induction l with
    | nil =>
      intro c r P p hjf hcode hrun
      rw [interpListF] at hrun
      cases hrun
      exact ⟨0, by simpa [sizeL] using StepsN.zero (P := P) (p, c)⟩
    | cons s rest ihrest =>
      intro c r P p hjf hcode hrun
      rw [interpListF] at hrun
      rw [compileList] at hcode
      obtain ⟨hc1, hc2⟩ := codeAt_append hcode
      rw [compile_length.1 s p] at hc2
      rw [jumpFreeL, Bool.and_eq_true] at hjf
      have hjs : jumpFreeS s = true := hjf.1
      have hjr : jumpFreeL rest = true := hjf.2
      match hstep : interpStmtF f s c with
      | none => rw [hstep] at hrun; exact Option.noConfusion hrun
      | some (.ok c₁) =>
        rw [hstep] at hrun
        obtain ⟨n, hn⟩ := hS s c (.ok c₁) P p hjs hc1 hstep
        have hrest : SimOut P (p + sizeS s) c₁ (p + sizeS s + sizeL rest) r :=
          ihrest c₁ r P (p + sizeS s) hjr hc2 hrun
        have : SimOut P p c (p + sizeS s + sizeL rest) r := SimOut.comp hn hrest
        rwa [show p + sizeS s + sizeL rest = p + sizeL (s :: rest) by
          rw [sizeL]; omega] at this
      | some (.err e c') =>
        rw [hstep] at hrun
        cases hrun
        have h1 : SimOut P p c (p + sizeS s) (.err e c') := hS s c _ P p hjs hc1 hstep
        exact h1
      | some (.panic c') =>
        rw [hstep] at hrun
        cases hrun
        exact absurd (hS s c (.panic c') P p hjs hc1 hstep) id
  exact ⟨hS, hLoop, hL⟩

/-- The flat machine never halts faster than the tree interpreter: a
tree run of `s` that exhausts its fuel keeps the flat machine running
(`none`) on the same fuel. -/
def NoneS (f : Nat) : Prop :=
  ∀ s c P p, jumpFreeS s = true → codeAt P p (compileStmt p s) →
    interpStmtF f s c = none → flatRunF f P p c = none

/-- As `NoneS`, for a loop entered at its closing `JumpNotZero`. -/
def NoneLoop (f : Nat) : Prop :=
  ∀ body c P p, jumpFreeL body = true → codeAt P p (compileStmt p (.Loop body)) →
    interpStmtF f (.Loop body) c = none → flatRunF f P (p + 1 + sizeL body) c = none

/-- As `NoneS`, for statement lists. -/
def NoneL (f : Nat) : Prop :=
  ∀ l c P p, jumpFreeL l = true → codeAt P p (compileList p l) →
    interpListF f l c = none → flatRunF f P p c = none

theorem compileStmt_head_lt {P : List Instruction} {p : Nat} {s : Statement}
    (hcode : codeAt P p (compileStmt p s)) : p < P.length := by
  cases s with
  | Instr i => exact codeAt_head_lt (by rwa [compileStmt] at hcode)
  | Loop body => exact (get_of_getElem? (loop_layout hcode).1).1

theorem none_sim : ∀ f, NoneS f ∧ NoneLoop f ∧ NoneL f := by
  intro f
  induction f using Nat.strong_induction_on with
  | _ f IH =>
  have hS : NoneS f := by
    intro s c P p hjf hcode hrun
    match f, s with
    | 0, s => exact flatRunF_zero (compileStmt_head_lt hcode)
    | f + 1, .Instr i =>
      rw [interpStmtF] at hrun
      have hnj : nonJump i = true := by rwa [jumpFreeS_instr] at hjf
      have hPi : P[p]? = some i := (codeAt_cons (by rwa [compileStmt] at hcode)).1
      refine flatRunF_stuck hPi ?_
      rw [stepF_nonjump hnj, hrun]
      rfl
    | f + 1, .Loop body =>
      obtain ⟨hPz, hB, hPn⟩ := loop_layout hcode
      rw [interpStmtF] at hrun
      by_cases hz : c.load = 0
      · rw [if_neg (by simpa using hz)] at hrun
        exact Option.noConfusion hrun
      · rw [if_pos (by simpa using hz)] at hrun
        have hstep1 : stepF (.JumpZero (p + 1 + sizeL body)) p c =
            some (.inl (p + 1, c)) := by
          simp [stepF, hz]
        rw [flatRunF_cont hPz hstep1]
        match hbody : interpListF f body c with
        | none =>
          exact (IH f (by omega)).2.2 body c P (p + 1) hjf hB hbody
        | some (.ok c₁) =>
          rw [hbody] at hrun
          obtain ⟨n, hn⟩ :=
            (forward_sim f).2.2 body c (.ok c₁) P (p + 1) hjf hB hbody
          by_cases hfn : f < n
          · exact stepsN_none hn hfn
          · have hnle : n ≤ f := Nat.not_lt.mp hfn
            have heq := flatRunF_of_stepsN hn (f - n)
            rw [Nat.add_sub_cancel' hnle] at heq
            rw [heq]
            exact flatRunF_none_mono (Nat.sub_le f n)
              ((IH f (by omega)).2.1 body c₁ P p hjf hcode hrun)
        | some (.err e c') => rw [hbody] at hrun; exact Option.noConfusion hrun
        | some (.panic c') => rw [hbody] at hrun; exact Option.noConfusion hrun
  have hLoop : NoneLoop f := by
    intro body c P p hjf hcode hrun
    obtain ⟨hPz, hB, hPn⟩ := loop_layout hcode
    match f with
    | 0 => exact flatRunF_zero (get_of_getElem? hPn).1
    | f + 1 =>
      rw [interpStmtF] at hrun
      by_cases hz : c.load = 0
      · rw [if_neg (by simpa using hz)] at hrun
        exact Option.noConfusion hrun
      · rw [if_pos (by simpa using hz)] at hrun
        have hstep1 : stepF (.JumpNotZero p) (p + 1 + sizeL body) c =
            some (.inl (p + 1, c)) := by
          simp [stepF, hz]
        rw [flatRunF_cont hPn hstep1]
        match hbody : interpListF f body c with
        | none =>
          exact (IH f (by omega)).2.2 body c P (p + 1) hjf hB hbody
        | some (.ok c₁) =>
          rw [hbody] at hrun
          obtain ⟨n, hn⟩ :=
            (forward_sim f).2.2 body c (.ok c₁) P (p + 1) hjf hB hbody
          by_cases hfn : f < n
          · exact stepsN_none hn hfn
          · have hnle : n ≤ f := Nat.not_lt.mp hfn
            have heq := flatRunF_of_stepsN hn (f - n)
            rw [Nat.add_sub_cancel' hnle] at heq
            rw [heq]
            exact flatRunF_none_mono (Nat.sub_le f n)
              ((IH f (by omega)).2.1 body c₁ P p hjf hcode hrun)
        | some (.err e c') => rw [hbody] at hrun; exact Option.noConfusion hrun
        | some (.panic c') => rw [hbody] at hrun; exact Option.noConfusion hrun
  have hL : NoneL f := by
    intro l
    induction l with
    | nil =>
      intro c P p hjf hcode hrun
      rw [interpListF] at hrun
      exact Option.noConfusion hrun
    | cons s rest ihrest =>
      intro c P p hjf hcode hrun
      rw [interpListF] at hrun
      rw [compileList] at hcode
      obtain ⟨hc1, hc2⟩ := codeAt_append hcode
      rw [compile_length.1 s p] at hc2
      rw [jumpFreeL, Bool.and_eq_true] at hjf
      match hstep : interpStmtF f s c with
      | none =>
        exact hS s c P p hjf.1 hc1 hstep
      | some (.ok c₁) =>
        rw [hstep] at hrun
        obtain ⟨n, hn⟩ := (forward_sim f).1 s c (.ok c₁) P p hjf.1 hc1 hstep
        by_cases hfn : f < n
        · exact stepsN_none hn hfn
        · have hnle : n ≤ f := Nat.not_lt.mp hfn
          have heq := flatRunF_of_stepsN hn (f - n)
          rw [Nat.add_sub_cancel' hnle] at heq
          rw [heq]
          exact flatRunF_none_mono (Nat.sub_le f n)
            (ihrest c₁ P (p + sizeS s) hjf.2 hc2 hrun)
      | some (.err e c') => rw [hstep] at hrun; exact Option.noConfusion hrun
      | some (.panic c') => rw [hstep] at hrun; exact Option.noConfusion hrun
  exact ⟨hS, hLoop, hL⟩

theorem codeAt_zero (P : List Instruction) : codeAt P 0 P := by
  intro i hi
  simp

/-- A terminating tree run of a jump-free program is reproduced exactly
(same result, including the output stream and the error kind) by the
flat dispatcher on the compiled program. -/
theorem tree_to_flat {prog : List Statement} {c : Config} {r : Res}
    (hjf : jumpFreeL prog = true) {f : Nat}
    (hrun : interpListF f prog c = some r) :
    ∃ g, flatRunF g (compile prog) 0 c = some r := by
  have hcode : codeAt (compile prog) 0 (compileList 0 prog) :=
    codeAt_zero (compile prog)
  have hsim := (forward_sim f).2.2 prog c r (compile prog) 0 hjf hcode hrun
  cases r with
  | ok c' =>
    obtain ⟨n, hn⟩ := hsim
    refine ⟨n + 0, ?_⟩
    rw [flatRunF_of_stepsN hn 0]
    refine flatRunF_halt ?_
    have hlen : (compile prog).length = sizeL prog := compile_length.2 prog 0
    omega
  | err e c' =>
    obtain ⟨n, q, cq, i, hn, hPi, hstep⟩ := hsim
    refine ⟨n + 1, ?_⟩
    rw [flatRunF_of_stepsN hn 1]
    exact flatRunF_err hPi hstep
  | panic c' => exact absurd hsim id

/-- C1: for every peephole-IR program containing no `JumpZero` or
`JumpNotZero` statements, every tape capacity and every input byte
stream (both contained in the initial configuration `c`), the peephole
tree interpreter and the flat dispatcher on `flat::compile` of the
program produce identical outcomes: one terminates with result `r`
(output stream and terminal state, `ok` or `err` with its error kind,
included) iff the other does. -/
theorem peephole_flat_equiv (prog : List Statement) (c : Config) (r : Res)
    (hjf : jumpFreeL prog = true) :
    (∃ f, interpListF f prog c = some r) ↔
    (∃ g, flatRunF g (compile prog) 0 c = some r) := by
  constructor
  · rintro ⟨f, hrun⟩
    exact tree_to_flat hjf hrun
  · rintro ⟨F, hflat⟩
    match hrun : interpListF F prog c with
    | none =>
      have hnone := (none_sim F).2.2 prog c (compile prog) 0 hjf
        (codeAt_zero (compile prog)) hrun
      rw [hflat] at hnone
      exact Option.noConfusion hnone
    | some r' =>
      obtain ⟨G, hG⟩ := tree_to_flat hjf hrun
      have h1 := flatRunF_mono (Nat.le_max_left F G) hflat
      have h2 := flatRunF_mono (Nat.le_max_right F G) hG
      rw [h1] at h2
      cases h2
      exact ⟨F, hrun⟩

/-- Witness for C1 at the program `+[>+]` on a 4-cell tape with empty
input: both execution paths can produce exactly the `PointerOverflow`
outcome with an empty output stream. -/
theorem peephole_flat_equiv_witness :
    ((∃ f, interpListF f
        [.Instr (.Add 1), .Loop [.Instr (.Right 1), .Instr (.Add 1)]]
        ⟨⟨[0, 0, 0, 0], 0⟩, [], []⟩ =
        some (.err .PointerOverflow ⟨⟨[1, 1, 1, 1], 3⟩, [], []⟩)) ↔
      (∃ g, flatRunF g
        (compile [.Instr (.Add 1), .Loop [.Instr (.Right 1), .Instr (.Add 1)]])
        0 ⟨⟨[0, 0, 0, 0], 0⟩, [], []⟩ =
        some (.err .PointerOverflow ⟨⟨[1, 1, 1, 1], 3⟩, [], []⟩))) :=
  peephole_flat_equiv _ _ _ (by simp [jumpFreeL, jumpFreeS])

/-- Jump pairing of a code block emitted at position `base`: positions
inside the block are identified by their offset from `base`, and every
jump stores the absolute index of its partner. -/
structure JumpsMatched (code : List Instruction) (base : Nat) : Prop where
  zero_matched : ∀ i a, code[i]? = some (.JumpZero a) →
      ∃ j, a = base + j ∧ code[j]? = some (.JumpNotZero (base + i))
  notzero_matched : ∀ i a, code[i]? = some (.JumpNotZero a) →
      ∃ j, a = base + j ∧ code[j]? = some (.JumpZero (base + i))

theorem jumpsMatched_append {A B : List Instruction} {base : Nat}
    (hA : JumpsMatched A base) (hB : JumpsMatched B (base + A.length)) :
    JumpsMatched (A ++ B) base := by
  constructor
  · intro i a h
    rw [List.getElem?_append] at h
    by_cases hi : i < A.length
    · rw [if_pos hi] at h
      obtain ⟨j, hj1, hj2⟩ := hA.zero_matched i a h
      have hjlt : j < A.length := (List.getElem?_eq_some.mp hj2).1
      exact ⟨j, hj1, by rw [List.getElem?_append, if_pos hjlt]; exact hj2⟩
    · rw [if_neg hi] at h
      obtain ⟨j', hj1, hj2⟩ := hB.zero_matched (i - A.length) a h
      rw [show base + A.length + (i - A.length) = base + i by omega] at hj2
      refine ⟨A.length + j', by omega, ?_⟩
      rw [List.getElem?_append, if_neg (by omega), Nat.add_sub_cancel_left]
      exact hj2
  · intro i a h
    rw [List.getElem?_append] at h
    by_cases hi : i < A.length
    · rw [if_pos hi] at h
      obtain ⟨j, hj1, hj2⟩ := hA.notzero_matched i a h
      have hjlt : j < A.length := (List.getElem?_eq_some.mp hj2).1
      exact ⟨j, hj1, by rw [List.getElem?_append, if_pos hjlt]; exact hj2⟩
    · rw [if_neg hi] at h
      obtain ⟨j', hj1, hj2⟩ := hB.notzero_matched (i - A.length) a h
      rw [show base + A.length + (i - A.length) = base + i by omega] at hj2
      refine ⟨A.length + j', by omega, ?_⟩
      rw [List.getElem?_append, if_neg (by omega), Nat.add_sub_cancel_left]
      exact hj2

theorem JumpsMatched.loop {body : List Statement} {p : Nat}
    (hB : JumpsMatched (compileList (p + 1) body) (p + 1)) :
    JumpsMatched (compileStmt p (.Loop body)) p := by
  simp only [compileStmt]
  rw [List.cons_append]
  set B := compileList (p + 1) body with hBdef
  constructor
  · intro i a h
    cases i with
    | zero =>
      simp only [List.getElem?_cons_zero, Option.some.injEq,
        Instruction.JumpZero.injEq] at h
      refine ⟨B.length + 1, by omega, ?_⟩
      simp only [List.getElem?_cons_succ]
      rw [List.getElem?_append, if_neg (by omega)]
      simp
    | succ k =>
      simp only [List.getElem?_cons_succ] at h
      rw [List.getElem?_append] at h
      by_cases hk : k < B.length
      · rw [if_pos hk] at h
        obtain ⟨j', hj1, hj2⟩ := hB.zero_matched k a h
        have hjlt : j' < B.length := (List.getElem?_eq_some.mp hj2).1
        refine ⟨1 + j', by omega, ?_⟩
        rw [show (1 + j' : Nat) = j' + 1 by omega]
        simp only [List.getElem?_cons_succ]
        rw [List.getElem?_append, if_pos hjlt]
        rw [show p + 1 + k = p + (k + 1) by omega] at hj2
        exact hj2
      · rw [if_neg hk] at h
        match hkl : k - B.length with
        | 0 => rw [hkl] at h; exact absurd h (by simp)
        | _ + 1 => rw [hkl] at h; exact absurd h (by simp)
  · intro i a h
    cases i with
    | zero => exact absurd h (by simp)
    | succ k =>
      simp only [List.getElem?_cons_succ] at h
      rw [List.getElem?_append] at h
      by_cases hk : k < B.length
      · rw [if_pos hk] at h
        obtain ⟨j', hj1, hj2⟩ := hB.notzero_matched k a h
        have hjlt : j' < B.length := (List.getElem?_eq_some.mp hj2).1
        refine ⟨1 + j', by omega, ?_⟩
        rw [show (1 + j' : Nat) = j' + 1 by omega]
        simp only [List.getElem?_cons_succ]
        rw [List.getElem?_append, if_pos hjlt]
        rw [show p + 1 + k = p + (k + 1) by omega] at hj2
        exact hj2
      · rw [if_neg hk] at h
        match hkl : k - B.length with
        | 0 =>
          rw [hkl] at h
          simp only [List.getElem?_cons_zero, Option.some.injEq,
            Instruction.JumpNotZero.injEq] at h
          have hik : k = B.length := by omega
          refine ⟨0, by omega, ?_⟩
          simp only [List.getElem?_cons_zero, Option.some.injEq,
            Instruction.JumpZero.injEq]
          omega
        | _ + 1 => rw [hkl] at h; exact absurd h (by simp)

/-- Every jump-free statement (or list) compiles to a block whose jumps
are pairwise matched: each stores the absolute index of its partner. -/
theorem compile_jumpsMatched :
    (∀ s, jumpFreeS s = true → ∀ p, JumpsMatched (compileStmt p s) p) ∧
    (∀ l, jumpFreeL l = true → ∀ p, JumpsMatched (compileList p l) p) := by
  apply statement_mutual_ind
  · intro i hjf p
    have hnj : nonJump i = true := by rwa [jumpFreeS_instr] at hjf
    rw [compileStmt]
    constructor
    · intro i' a h
      cases i' with
      | zero =>
        simp only [List.getElem?_cons_zero, Option.some.injEq] at h
        rw [h] at hnj
        exact absurd hnj (by simp [nonJump])
      | succ m => exact absurd h (by simp)
    · intro i' a h
      cases i' with
      | zero =>
        simp only [List.getElem?_cons_zero, Option.some.injEq] at h
        rw [h] at hnj
        exact absurd hnj (by simp [nonJump])
      | succ m => exact absurd h (by simp)
  · intro body ih hjf p
    have hjb : jumpFreeL body = true := by rwa [jumpFreeS] at hjf
    exact JumpsMatched.loop (ih hjb (p + 1))
  · intro hjf p
    rw [compileList]
    exact ⟨fun i a h => absurd h (by simp), fun i a h => absurd h (by simp)⟩
  · intro s rest ihs ihr hjf p
    rw [jumpFreeL, Bool.and_eq_true] at hjf
    rw [compileList]
    exact jumpsMatched_append (ihs hjf.1 p) (ihr hjf.2 (p + (compileStmt p s).length))

/-- C2 (counterexample): on the program `[Loop []]` the compiler emits
`[JumpZero 1, JumpNotZero 0]` — the back-patched `JumpZero` stores the
index `j` of the closing jump itself (not `j + 1`), and the closing jump
stores `i` (not `i + 1`) — so the claimed invariant "every `JumpZero(a)`
at index `i` has a `JumpNotZero(i+1)` at index `a-1`" fails: here
`i = 0`, `a = 1`, and index `a - 1 = 0` holds the `JumpZero` itself. -/
theorem flat_compile_backpatch_cex :
    compile [.Loop []] = [.JumpZero 1, .JumpNotZero 0] ∧
    ¬ (∀ i a, (compile [.Loop []])[i]? = some (Instruction.JumpZero a) →
        (compile [.Loop []])[a - 1]? = some (Instruction.JumpNotZero (i + 1))) := by
  have hc : compile [Statement.Loop []] = [.JumpZero 1, .JumpNotZero 0] := by
    simp [compile, compileList, compileStmt]
  refine ⟨hc, fun hcl => ?_⟩
  have h0 := hcl 0 1 (by rw [hc]; rfl)
  rw [hc] at h0
  simp at h0

/-- C2 (amended): compiling `Loop(body)` at index `i` issues
`JumpNotZero(i)` at the closing index `j` and back-patches index `i` to
`JumpZero(j)` (the dispatcher's unconditional `pc += 1` after a taken
jump is what makes control resume one past the partner jump);
consequently, in every program compiled from a jump-free source, every
`JumpZero(a)` at index `i` is matched by `JumpNotZero(i)` at index `a`,
and vice versa. -/
theorem flat_compile_backpatch (src : List Statement)
    (hjf : jumpFreeL src = true) :
    (∀ p body, compileStmt p (.Loop body) =
      .JumpZero (p + 1 + sizeL body) :: compileList (p + 1) body ++
        [.JumpNotZero p]) ∧
    (∀ i a, (compile src)[i]? = some (Instruction.JumpZero a) →
        (compile src)[a]? = some (Instruction.JumpNotZero i)) ∧
    (∀ i a, (compile src)[i]? = some (Instruction.JumpNotZero a) →
        (compile src)[a]? = some (Instruction.JumpZero i)) := by
  have hm := compile_jumpsMatched.2 src hjf 0
  refine ⟨?_, ?_, ?_⟩
  · intro p body
    simp [compileStmt, compile_length.2]
  · intro i a h
    rw [compile] at h ⊢
    obtain ⟨j, hj1, hj2⟩ := hm.zero_matched i a h
    rw [Nat.zero_add] at hj1 hj2
    rw [hj1]
    exact hj2
  · intro i a h
    rw [compile] at h ⊢
    obtain ⟨j, hj1, hj2⟩ := hm.notzero_matched i a h
    rw [Nat.zero_add] at hj1 hj2
    rw [hj1]
    exact hj2

/-- Witness for the amended C2 on the program `[Loop []]`: its
`JumpZero 1` at index 0 is matched by the `JumpNotZero 0` at index 1. -/
theorem flat_compile_backpatch_witness :
    (compile [Statement.Loop []])[0]? = some (.JumpZero 1) ∧
    (compile [Statement.Loop []])[1]? = some (.JumpNotZero 0) := by
  have h := flat_compile_backpatch [Statement.Loop []]
    (by simp [jumpFreeL, jumpFreeS])
  have h0 : (compile [Statement.Loop []])[0]? = some (Instruction.JumpZero 1) := by
    simp [compile, compileList, compileStmt]
  exact ⟨h0, h.2.1 0 1 h0⟩

/-- C3 (counterexample): dispatching `JumpZero 0` at `pc = 0` with a
zero current cell continues at `pc = 1`, not at the stored target `0`:
the dispatcher writes `pc = address` and then still runs the
unconditional `pc += 1` at the bottom of the loop, so a taken jump
resumes at `address + 1`.  Consequently `flatRunF` halts normally on the
program `[JumpZero 0]`, which under the claimed semantics would loop at
`pc = 0` forever. -/
theorem flat_dispatch_pc_cex :
    stepF (.JumpZero 0) 0 ⟨⟨[0], 0⟩, [], []⟩ =
      some (.inl (1, ⟨⟨[0], 0⟩, [], []⟩)) ∧ (1 : Nat) ≠ 0 ∧
    flatRunF 2 [.JumpZero 0] 0 ⟨⟨[0], 0⟩, [], []⟩ =
      some (.ok ⟨⟨[0], 0⟩, [], []⟩) := by
  refine ⟨rfl, by decide, ?_⟩
  rw [flatRunF]
  simp [stepF, Config.load, State.load]
  exact flatRunF_halt (by simp)

/-- C4 (counterexample): with offset `k = 0` the claimed description —
increment `cell[+k]` by the cell, then the current cell becomes 0 —
fails: the code stores 0 into the current cell *before* the offset add,
so `OffsetAddRight(0)` on a cell holding 5 leaves the cell at 5, not 0. -/
theorem offset_add_order_cex :
    interpInstr (.OffsetAddRight 0) ⟨⟨[5, 0], 0⟩, [], []⟩ =
      some (.ok ⟨⟨[5, 0], 0⟩, [], []⟩) ∧
    (⟨⟨[5, 0], 0⟩, [], []⟩ : Config).load = 5 ∧ (5 : Nat) ≠ 0 :=
  ⟨rfl, rfl, by decide⟩

/-- C3 (amended): on `JumpZero(a)` the dispatcher resumes at `a + 1`
when the current cell is zero (the `pc = address` assignment is followed
by the unconditional `pc += 1`) and at `pc + 1` otherwise;
`JumpNotZero(a)` is symmetric; the run halts with `Ok` exactly when
`pc ≥ len(P)`, and makes no progress without fuel while `pc < len(P)`. -/
theorem flat_dispatch_pc (P : List Instruction) (pc a f : Nat) (c : Config) :
    stepF (.JumpZero a) pc c =
      some (.inl ((if c.load = 0 then a else pc) + 1, c)) ∧
    stepF (.JumpNotZero a) pc c =
      some (.inl ((if c.load ≠ 0 then a else pc) + 1, c)) ∧
    (P.length ≤ pc → flatRunF f P pc c = some (.ok c)) ∧
    (pc < P.length → flatRunF 0 P pc c = none) :=
  ⟨rfl, rfl, fun h => flatRunF_halt h, fun h => flatRunF_zero h⟩

/-- Witness for the amended C3: a taken `JumpZero 5` at `pc = 1` resumes
at 6; the dispatcher halts at `pc = 1` on a 1-instruction program and is
still running at `pc = 0` without fuel. -/
theorem flat_dispatch_pc_witness :
    stepF (.JumpZero 5) 1 ⟨⟨[0], 0⟩, [], []⟩ =
      some (.inl (6, ⟨⟨[0], 0⟩, [], []⟩)) ∧
    flatRunF 3 [.Add 1] 1 ⟨⟨[0], 0⟩, [], []⟩ =
      some (.ok ⟨⟨[0], 0⟩, [], []⟩) ∧
    flatRunF 0 [.Add 1] 0 ⟨⟨[0], 0⟩, [], []⟩ = none := by
  have h1 := flat_dispatch_pc [.Add 1] 1 5 3 ⟨⟨[0], 0⟩, [], []⟩
  have h2 := flat_dispatch_pc [.Add 1] 0 5 0 ⟨⟨[0], 0⟩, [], []⟩
  refine ⟨?_, h1.2.2.1 (by simp), h2.2.2.2 (by simp)⟩
  have := h1.1
  simpa [Config.load, State.load] using this

theorem State.store_head (s : State) (v : Nat) : (s.store v).head = s.head := rfl

theorem State.up_pos_offset_ok {s : State} {k : Nat} (v : Nat)
    (h : s.head + k < s.tape.length) :
    s.up_pos_offset k v =
      .ok { s with tape := s.tape.set (s.head + k) ((s.tape.getD (s.head + k) 0 + v) % 256) } := by
  rw [State.up_pos_offset, if_neg (by omega)]

theorem State.up_pos_offset_err {s : State} {k : Nat} (v : Nat)
    (h : s.tape.length ≤ s.head + k) :
    s.up_pos_offset k v = .error .PointerOverflow := by
  rw [State.up_pos_offset, if_pos (by omega)]

theorem State.up_neg_offset_ok {s : State} {k : Nat} (v : Nat)
    (h : k ≤ s.head) :
    s.up_neg_offset k v =
      .ok { s with tape := s.tape.set (s.head - k) ((s.tape.getD (s.head - k) 0 + v) % 256) } := by
  rw [State.up_neg_offset, if_neg (by omega)]

theorem State.up_neg_offset_err {s : State} {k : Nat} (v : Nat)
    (h : s.head < k) :
    s.up_neg_offset k v = .error .PointerUnderflow := by
  rw [State.up_neg_offset, if_pos (by omega)]

theorem State.store_length (s : State) (v : Nat) :
    (s.store v).tape.length = s.tape.length := List.length_set s.tape s.head v

/-- C4 (amended, `k ≥ 1`): on a non-zero current cell,
`OffsetAddRight(k)` adds the cell's value into the cell at `head + k`
modulo 256, zeroes the current cell, leaves the head and both I/O
streams unchanged, and fails with `PointerOverflow` when `head + k` is
outside the tape; `OffsetAddLeft(k)` is symmetric with `head - k` and
`PointerUnderflow`.  (For `k = 0` the code zeroes the cell before the
add, so the cell keeps its value; see the counterexample.)  The flat
dispatcher arm computes the same outcome, with `pc + 1` on success.
The head-invariant hypothesis `head < capacity` is the spec's §3 tape
invariant. -/
theorem offset_add_semantics (c : Config) (k : Nat) (hk : 1 ≤ k)
    (hhead : c.state.head < c.state.tape.length) (hcell : c.load ≠ 0) :
    (c.state.head + k < c.state.tape.length →
      ∃ c', interpInstr (.OffsetAddRight k) c = some (.ok c') ∧
        (∀ pc, stepF (.OffsetAddRight k) pc c = some (.inl (pc + 1, c'))) ∧
        c'.state.head = c.state.head ∧ c'.load = 0 ∧
        c'.state.tape.getD (c.state.head + k) 0 =
          (c.state.tape.getD (c.state.head + k) 0 + c.load) % 256 ∧
        c'.inp = c.inp ∧ c'.out = c.out) ∧
    (c.state.tape.length ≤ c.state.head + k →
      interpInstr (.OffsetAddRight k) c =
        some (.err .PointerOverflow { c with state := c.state.store 0 })) ∧
    (k ≤ c.state.head →
      ∃ c', interpInstr (.OffsetAddLeft k) c = some (.ok c') ∧
        (∀ pc, stepF (.OffsetAddLeft k) pc c = some (.inl (pc + 1, c'))) ∧
        c'.state.head = c.state.head ∧ c'.load = 0 ∧
        c'.state.tape.getD (c.state.head - k) 0 =
          (c.state.tape.getD (c.state.head - k) 0 + c.load) % 256 ∧
        c'.inp = c.inp ∧ c'.out = c.out) ∧
    (c.state.head < k →
      interpInstr (.OffsetAddLeft k) c =
        some (.err .PointerUnderflow { c with state := c.state.store 0 })) := by
  have hcl : c.state.load ≠ 0 := hcell
  refine ⟨?_, ?_, ?_, ?_⟩
  · intro hbound
    have hok : interpInstr (.OffsetAddRight k) c = some (.ok { c with state :=
        ⟨(c.state.tape.set c.state.head 0).set (c.state.head + k)
          (((c.state.tape.set c.state.head 0).getD (c.state.head + k) 0 +
            c.state.load) % 256), c.state.head⟩ }) := by
      simp only [interpInstr, hcl, ite_not, if_false]
      rw [State.up_pos_offset_ok c.state.load
        (by rw [State.store_head, State.store_length]; omega)]
      rfl
    refine ⟨_, hok, ?_, rfl, ?_, ?_, rfl, rfl⟩
    · intro pc
      rw [stepF_nonjump (by simp [nonJump]), hok]
      rfl
    · show ((c.state.tape.set c.state.head 0).set (c.state.head + k) _).getD
        c.state.head 0 = 0
      rw [List.getD_eq_getElem?_getD,
        List.getElem?_set_ne (by omega),
        List.getElem?_set]
      by_cases hh : c.state.head < c.state.tape.length
      · rw [if_pos rfl, if_pos hh]
        rfl
      · rw [if_pos rfl, if_neg hh]
        rfl
    · show ((c.state.tape.set c.state.head 0).set (c.state.head + k) _).getD
        (c.state.head + k) 0 = _
      rw [List.getD_eq_getElem?_getD,
        List.getElem?_set_self (by rwa [List.length_set])]
      rw [List.getD_eq_getElem?_getD, List.getElem?_set_ne (by omega),
        ← List.getD_eq_getElem?_getD]
      simp [Config.load, State.load]
  · intro hbound
    simp only [interpInstr, hcl, ite_not, if_false]
    rw [State.up_pos_offset_err c.state.load
      (by rw [State.store_head, State.store_length]; omega)]
  · intro hbound
    have hok : interpInstr (.OffsetAddLeft k) c = some (.ok { c with state :=
        ⟨(c.state.tape.set c.state.head 0).set (c.state.head - k)
          (((c.state.tape.set c.state.head 0).getD (c.state.head - k) 0 +
            c.state.load) % 256), c.state.head⟩ }) := by
      simp only [interpInstr, hcl, ite_not, if_false]
      rw [State.up_neg_offset_ok c.state.load
        (by rw [State.store_head]; omega)]
      rfl
    refine ⟨_, hok, ?_, rfl, ?_, ?_, rfl, rfl⟩
    · intro pc
      rw [stepF_nonjump (by simp [nonJump]), hok]
      rfl
    · show ((c.state.tape.set c.state.head 0).set (c.state.head - k) _).getD
        c.state.head 0 = 0
      rw [List.getD_eq_getElem?_getD,
        List.getElem?_set_ne (by omega),
        List.getElem?_set]
      by_cases hh : c.state.head < c.state.tape.length
      · rw [if_pos rfl, if_pos hh]
        rfl
      · rw [if_pos rfl, if_neg hh]
        rfl
    · show ((c.state.tape.set c.state.head 0).set (c.state.head - k) _).getD
        (c.state.head - k) 0 = _
      rw [List.getD_eq_getElem?_getD,
        List.getElem?_set_self (by rw [List.length_set]; omega)]
      rw [List.getD_eq_getElem?_getD, List.getElem?_set_ne (by omega),
        ← List.getD_eq_getElem?_getD]
      simp [Config.load, State.load]
  · intro hbound
    simp only [interpInstr, hcl, ite_not, if_false]
    rw [State.up_neg_offset_err c.state.load (by rw [State.store_head]; omega)]

/-- Witness for the amended C4 on the tape `[2, 7, 0]` with head 0:
`OffsetAddLeft 2` underflows (with the cell already zeroed), and
`OffsetAddRight 1` produces `[0, 9, 0]`. -/
theorem offset_add_semantics_witness :
    interpInstr (.OffsetAddLeft 2) ⟨⟨[2, 7, 0], 0⟩, [], []⟩ =
      some (.err .PointerUnderflow ⟨⟨[0, 7, 0], 0⟩, [], []⟩) ∧
    interpInstr (.OffsetAddRight 1) ⟨⟨[2, 7, 0], 0⟩, [], []⟩ =
      some (.ok ⟨⟨[0, 9, 0], 0⟩, [], []⟩) := by
  constructor
  · exact (offset_add_semantics ⟨⟨[2, 7, 0], 0⟩, [], []⟩ 2 (by decide) (by decide)
      (by decide)).2.2.2 (by decide)
  · rfl

theorem State.right_err {s : State} {n : Nat} {e : Error}
    (h : s.right n = .error e) : e = .PointerOverflow := by
  rw [State.right] at h
  split at h
  · cases h; rfl
  · exact absurd h (by simp)

theorem State.left_err {s : State} {n : Nat} {e : Error}
    (h : s.left n = .error e) : e = .PointerUnderflow := by
  rw [State.left] at h
  split at h
  · cases h; rfl
  · exact absurd h (by simp)

/-- `findZeroRight` with positive skip, bounded-measure version: the
loop terminates within `n` iterations when `tape.length - head ≤ n`. -/
theorem findZeroRight_spec : ∀ n : Nat, ∀ s : State, ∀ k : Nat,
    s.tape.length - s.head ≤ n → 1 ≤ k →
    ∃ r, findZeroRight s k = some r ∧
      (∀ s', r = .ok s' → s'.load = 0 ∧ s'.tape = s.tape ∧
        ∃ m, s'.head = s.head + m * k) ∧
      (∀ e, r = .error e → e = .PointerOverflow) := by
  intro n
  induction n with
  | zero =>
    intro s k hn hk
    by_cases h0 : s.load = 0
    · refine ⟨.ok s, ?_, ?_, ?_⟩
      · rw [findZeroRight, if_pos h0]
      · rintro s' rfl'
        cases rfl'
        exact ⟨h0, rfl, 0, by omega⟩
      · rintro e he
        exact absurd he (by simp)
    · have herr : s.right k = .error .PointerOverflow := by
        rw [State.right, if_pos (by omega)]
      refine ⟨.error .PointerOverflow, ?_, ?_, ?_⟩
      · rw [findZeroRight, if_neg h0]
        split
        · rename_i e he
          rw [herr] at he
          cases he
          rfl
        · rename_i s' hs'
          rw [herr] at hs'
          exact absurd hs' (by simp)
      · rintro s' hs'
        exact absurd hs' (by simp)
      · rintro e he
        cases he
        rfl
  | succ n ih =>
    intro s k hn hk
    by_cases h0 : s.load = 0
    · refine ⟨.ok s, ?_, ?_, ?_⟩
      · rw [findZeroRight, if_pos h0]
      · rintro s' hs'
        cases hs'
        exact ⟨h0, rfl, 0, by omega⟩
      · rintro e he
        exact absurd he (by simp)
    · match hr : s.right k with
      | .error e =>
        have he := State.right_err hr
        subst he
        refine ⟨.error .PointerOverflow, ?_, ?_, ?_⟩
        · rw [findZeroRight, if_neg h0]
          split
          · rename_i e' he'
            rw [hr] at he'
            cases he'
            rfl
          · rename_i s' hs'
            rw [hr] at hs'
            exact absurd hs' (by simp)
        · rintro s' hs'
          exact absurd hs' (by simp)
        · rintro e' he'
          cases he'
          rfl
      | .ok s' =>
        obtain ⟨hh, ht, hlt⟩ := State.right_ok hr
        obtain ⟨r, hrec, hok, herr⟩ := ih s' k (by rw [ht]; omega) hk
        refine ⟨r, ?_, ?_, herr⟩
        · rw [findZeroRight, if_neg h0]
          split
          · rename_i e' he'
            rw [hr] at he'
            exact absurd he' (by simp)
          · rename_i s'' hs''
            rw [hr] at hs''
            cases hs''
            rw [dif_neg (by omega)]
            exact hrec
        · rintro s'' hs''
          obtain ⟨hl0, htape, m, hm⟩ := hok s'' hs''
          exact ⟨hl0, by rw [htape, ht], m + 1, by
            rw [hm, hh]
            ring⟩

/-- `findZeroLeft` with positive skip, bounded-measure version. -/
theorem findZeroLeft_spec : ∀ n : Nat, ∀ s : State, ∀ k : Nat,
    s.head ≤ n → 1 ≤ k →
    ∃ r, findZeroLeft s k = some r ∧
      (∀ s', r = .ok s' → s'.load = 0 ∧ s'.tape = s.tape ∧
        ∃ m, s.head = s'.head + m * k) ∧
      (∀ e, r = .error e → e = .PointerUnderflow) := by
  intro n
  induction n with
  | zero =>
    intro s k hn hk
    by_cases h0 : s.load = 0
    · refine ⟨.ok s, ?_, ?_, ?_⟩
      · rw [findZeroLeft, if_pos h0]
      · rintro s' hs'
        cases hs'
        exact ⟨h0, rfl, 0, by omega⟩
      · rintro e he
        exact absurd he (by simp)
    · have herr : s.left k = .error .PointerUnderflow := by
        rw [State.left, if_pos (by omega)]
      refine ⟨.error .PointerUnderflow, ?_, ?_, ?_⟩
      · rw [findZeroLeft, if_neg h0]
        split
        · rename_i e he
          rw [herr] at he
          cases he
          rfl
        · rename_i s' hs'
          rw [herr] at hs'
          exact absurd hs' (by simp)
      · rintro s' hs'
        exact absurd hs' (by simp)
      · rintro e he
        cases he
        rfl
  | succ n ih =>
    intro s k hn hk
    by_cases h0 : s.load = 0
    · refine ⟨.ok s, ?_, ?_, ?_⟩
      · rw [findZeroLeft, if_pos h0]
      · rintro s' hs'
        cases hs'
        exact ⟨h0, rfl, 0, by omega⟩
      · rintro e he
        exact absurd he (by simp)
    · match hr : s.left k with
      | .error e =>
        have he := State.left_err hr
        subst he
        refine ⟨.error .PointerUnderflow, ?_, ?_, ?_⟩
        · rw [findZeroLeft, if_neg h0]
          split
          · rename_i e' he'
            rw [hr] at he'
            cases he'
            rfl
          · rename_i s' hs'
            rw [hr] at hs'
            exact absurd hs' (by simp)
        · rintro s' hs'
          exact absurd hs' (by simp)
        · rintro e' he'
          cases he'
          rfl
      | .ok s' =>
        obtain ⟨hh, ht, hle⟩ := State.left_ok hr
        obtain ⟨r, hrec, hok, herr⟩ := ih s' k (by omega) hk
        refine ⟨r, ?_, ?_, herr⟩
        · rw [findZeroLeft, if_neg h0]
          split
          · rename_i e' he'
            rw [hr] at he'
            exact absurd he' (by simp)
          · rename_i s'' hs''
            rw [hr] at hs''
            cases hs''
            rw [dif_neg (by omega)]
            exact hrec
        · rintro s'' hs''
          obtain ⟨hl0, htape, m, hm⟩ := hok s'' hs''
          refine ⟨hl0, by rw [htape, ht], m + 1, ?_⟩
          have hexp : (m + 1) * k = m * k + k := by ring
          have hh' : s'.head = s.head - k := hh
          have hk' : k ≤ s.head := hle
          omega

/-- C5: for every tape state and skip `k ≥ 1`, `FindZeroRight(k)`
terminates — it returns `Ok` with the head resting on a zero-valued
cell reached from the start by some number of rightward moves of `k`
(tape unchanged), or `Err(PointerOverflow)`; `FindZeroLeft(k)`
symmetrically terminates with `Ok` or `Err(PointerUnderflow)`. -/
theorem find_zero_terminates (s : State) (k : Nat) (hk : 1 ≤ k) :
    (∃ r, findZeroRight s k = some r ∧
      (∀ s', r = .ok s' → s'.load = 0 ∧ s'.tape = s.tape ∧
        ∃ m, s'.head = s.head + m * k) ∧
      (∀ e, r = .error e → e = .PointerOverflow)) ∧
    (∃ r, findZeroLeft s k = some r ∧
      (∀ s', r = .ok s' → s'.load = 0 ∧ s'.tape = s.tape ∧
        ∃ m, s.head = s'.head + m * k) ∧
      (∀ e, r = .error e → e = .PointerUnderflow)) :=
  ⟨findZeroRight_spec (s.tape.length - s.head) s k (by omega) hk,
   findZeroLeft_spec s.head s k (by omega) hk⟩

/-- Witness for C5: both search loops produce a result on concrete
tapes (skip 1 rightward from a tape with a zero two cells away; skip 3
leftward from head 2, which underflows). -/
theorem find_zero_terminates_witness :
    findZeroRight ⟨[1, 1, 0, 1], 0⟩ 1 ≠ none ∧
    findZeroLeft ⟨[1, 1, 1, 1], 2⟩ 3 ≠ none := by
  obtain ⟨r1, hr1, -⟩ := (find_zero_terminates ⟨[1, 1, 0, 1], 0⟩ 1 (by decide)).1
  obtain ⟨r2, hr2, -⟩ := (find_zero_terminates ⟨[1, 1, 1, 1], 2⟩ 3 (by decide)).2
  exact ⟨by rw [hr1]; simp, by rw [hr2]; simp⟩

/-- Sequencing of the tree interpreter over a list concatenation: run
the first block, and on success continue with the second from the
resulting configuration; any non-`ok` outcome of the first block is the
outcome of the whole. -/
theorem interpListF_append (f : Nat) (l1 l2 : List Statement) (c : Config) :
    interpListF f (l1 ++ l2) c =
      match interpListF f l1 c with
      | some (.ok c') => interpListF f l2 c'
      | r => r := by
  induction l1 generalizing c with
  | nil => rw [List.nil_append, interpListF]
  | cons s rest ih =>
    rw [List.cons_append, interpListF, interpListF]
    match hms : interpStmtF f s c with
    | some (.ok c₁) => exact ih c₁
    | some (.err e ec) => rfl
    | some (.panic p) => rfl
    | none => rfl

/-- C6: the peephole tree interpreter runs statements in order (a list
runs its head first, continuing only on `ok`); a `Loop(body)` tests the
cell before each iteration — zero iterations when the cell is 0 on
entry, otherwise one run of the body followed by the loop again; and
the first error aborts interpretation of the whole program immediately
with that error: no statement after the failing one is executed. -/
theorem peephole_interp_order (f : Nat) (s : Statement)
    (body pre post : List Statement) (c c₁ ec : Config) (e : Error) :
    (interpListF f (s :: post) c =
      match interpStmtF f s c with
      | some (.ok c') => interpListF f post c'
      | r => r) ∧
    (c.load = 0 → interpStmtF (f + 1) (.Loop body) c = some (.ok c)) ∧
    (c.load ≠ 0 → interpStmtF (f + 1) (.Loop body) c =
      match interpListF f body c with
      | some (.ok c') => interpStmtF f (.Loop body) c'
      | r => r) ∧
    (interpListF f pre c = some (.ok c₁) →
      interpStmtF f s c₁ = some (.err e ec) →
      interpListF f (pre ++ s :: post) c = some (.err e ec)) := by
  refine ⟨?_, ?_, ?_, ?_⟩
  · rw [interpListF]
  · intro hz
    rw [interpStmtF, if_neg (by simpa using hz)]
  · intro hz
    rw [interpStmtF, if_pos (by simpa using hz)]
  · intro hpre hs
    rw [interpListF_append, hpre]
    show interpListF f (s :: post) c₁ = some (.err e ec)
    rw [interpListF, hs]

/-- Witness for C6: on a one-cell tape, `[Add 1]` then `Right 5` then
`Out` aborts at the overflowing `Right 5` with no byte written. -/
theorem peephole_interp_order_witness :
    interpListF 1 ([.Instr (.Add 1)] ++ .Instr (.Right 5) :: [.Instr .Out])
      ⟨⟨[0], 0⟩, [], []⟩ =
      some (.err .PointerOverflow ⟨⟨[1], 0⟩, [], []⟩) := by
  have h := peephole_interp_order 1 (.Instr (.Right 5)) [] [.Instr (.Add 1)]
    [.Instr .Out] ⟨⟨[0], 0⟩, [], []⟩ ⟨⟨[1], 0⟩, [], []⟩ ⟨⟨[1], 0⟩, [], []⟩
    .PointerOverflow
  refine h.2.2.2 ?_ ?_
  · simp [interpListF, interpStmtF, interpInstr, State.up, State.store,
      State.load, Config.load]
  · simp [interpStmtF, interpInstr, State.right]

/-- The tree interpreter never produces a panic on a jump-free program:
the `panic!` arm is reachable only from `JumpZero`/`JumpNotZero`. -/
theorem no_panic : ∀ f : Nat,
    (∀ s c c', jumpFreeS s = true → interpStmtF f s c ≠ some (.panic c')) ∧
    (∀ l c c', jumpFreeL l = true → interpListF f l c ≠ some (.panic c')) := by
  intro f
  induction f using Nat.strong_induction_on with
  | _ f IH =>
  have hS : ∀ s c c', jumpFreeS s = true → interpStmtF f s c ≠ some (.panic c') := by
    intro s c c' hjf h
    match f, s with
    | 0, s => rw [interpStmtF] at h; exact Option.noConfusion h
    | f + 1, .Instr i =>
      rw [interpStmtF] at h
      exact interpInstr_no_panic (by rwa [jumpFreeS_instr] at hjf) h
    | f + 1, .Loop body =>
      rw [interpStmtF] at h
      have hjb : jumpFreeL body = true := by rwa [jumpFreeS] at hjf
      by_cases hz : c.load = 0
      · rw [if_neg (by simpa using hz)] at h
        exact Res.noConfusion (Option.some.inj h)
      · rw [if_pos (by simpa using hz)] at h
        match hbody : interpListF f body c with
        | none => rw [hbody] at h; exact Option.noConfusion h
        | some (.ok c₁) =>
          rw [hbody] at h
          exact (IH f (by omega)).1 (.Loop body) c₁ c' hjf h
        | some (.err e ec) =>
          rw [hbody] at h
          exact Res.noConfusion (Option.some.inj h)
        | some (.panic pc') =>
          rw [hbody] at h
          exact (IH f (by omega)).2 body c pc' hjb hbody
  refine ⟨hS, ?_⟩
  intro l
  induction l with
  | nil =>
    intro c c' hjf h
    rw [interpListF] at h
    exact Res.noConfusion (Option.some.inj h)
  | cons s rest ihrest =>
    intro c c' hjf h
    rw [jumpFreeL, Bool.and_eq_true] at hjf
    rw [interpListF] at h
    match hstep : interpStmtF f s c with
    | none => rw [hstep] at h; exact Option.noConfusion h
    | some (.ok c₁) =>
      rw [hstep] at h
      exact ihrest c₁ c' hjf.2 h
    | some (.err e ec) =>
      rw [hstep] at h
      exact Res.noConfusion (Option.some.inj h)
    | some (.panic p) =>
      rw [hstep] at h
      exact hS s c p hjf.1 hstep

/-- C7: the peephole tree interpreter maps a `JumpZero`/`JumpNotZero`
statement to the `panic!` arm (modelled as the `Res.panic` outcome, not
a runtime error); and on any jump-free program — which every tree IR
is — the panic outcome is unreachable at every fuel. -/
theorem jump_panic (a : Nat) (c : Config) (f : Nat) (l : List Statement) :
    interpInstr (.JumpZero a) c = some (.panic c) ∧
    interpInstr (.JumpNotZero a) c = some (.panic c) ∧
    (∀ e ec, interpInstr (.JumpZero a) c ≠ some (.err e ec)) ∧
    (jumpFreeL l = true → ∀ c', interpListF f l c ≠ some (.panic c')) :=
  ⟨rfl, rfl, fun e ec h => Res.noConfusion (Option.some.inj h),
   fun hjf c' => (no_panic f).2 l c c' hjf⟩

/-- Witness for C7 at `a = 0`, the cat-program body, fuel 1. -/
theorem jump_panic_witness :
    interpInstr (.JumpZero 0) ⟨⟨[0], 0⟩, [], []⟩ =
      some (.panic ⟨⟨[0], 0⟩, [], []⟩) ∧
    interpListF 1 [.Instr .In] ⟨⟨[0], 0⟩, [], []⟩ ≠
      some (.panic ⟨⟨[0], 0⟩, [], []⟩) := by
  have h := jump_panic 0 ⟨⟨[0], 0⟩, [], []⟩ 1 [.Instr .In]
  exact ⟨h.1, h.2.2.2 (by simp [jumpFreeL, jumpFreeS, nonJump]) _⟩

/-- x86-64 registers used by the JIT emitter (`jit/compiler.rs`).  The
dynasm aliases are `pointer = r12`, `mem_start = r13`, `mem_limit = r14`,
`rts = r15`. -/
inductive Reg where
  | rax | rcx | rdx | r8 | r12 | r13 | r14 | r15
deriving DecidableEq, Repr

/-- The `pointer` alias (current head address). -/
def pointer : Reg := .r12

/-- The `mem_start` alias (tape base). -/
def mem_start : Reg := .r13

/-- The `mem_limit` alias (one past the last tape byte). -/
def mem_limit : Reg := .r14

/-- The `rts` alias (runtime-support object pointer). -/
def rtsReg : Reg := .r15

/-- First/second/third integer-argument registers of the calling
convention the emitter hardcodes (`rcx`, `rdx`, `r8` — the Windows x64
convention, which also explains the 0x28 bytes of shadow space in the
call shim). -/
def argReg1 : Reg := .rcx

/-- Second integer-argument register. -/
def argReg2 : Reg := .rdx

/-- Third integer-argument register. -/
def argReg3 : Reg := .r8

/-- Assembly labels: the three global epilogue labels and numbered
local/dynamic labels. -/
inductive Label where
  | underflow | overflow | finish
  | localLbl (n : Nat)
deriving DecidableEq, Repr

/-- The two RTS callbacks whose addresses the emitter loads
(`rts::RtsState::read` / `rts::RtsState::write`). -/
inductive RtsFun where
  | read | write
deriving DecidableEq, Repr

/-- The x86-64 instructions emitted by `jit/compiler.rs`, one
constructor per emitted instruction form (symbolic: labels are named,
not resolved to offsets). -/
inductive Asm where
  | push (r : Reg)
  | pop (r : Reg)
  | movRR (dst src : Reg)
  | addRR (dst src : Reg)
  | subRR (dst src : Reg)
  | cmpRR (a b : Reg)
  | movRI32 (dst : Reg) (imm : Int)
  | movRI64 (dst : Reg) (imm : Int)
  | movRFun (dst : Reg) (f : RtsFun)
  | addBytePtrImm (base : Reg) (imm : Nat)
  | movBytePtrImm (base : Reg) (imm : Nat)
  | movByteRM (dst base : Reg)
  | movByteMR (base src : Reg)
  | addBytePtrIdxR (base idx src : Reg)
  | negR (r : Reg)
  | xorRR (a b : Reg)
  | cmpBytePtrImm (base : Reg) (imm : Nat)
  | jmpL (l : Label)
  | jzL (l : Label)
  | jnzL (l : Label)
  | jleL (l : Label)
  | jlL (l : Label)
  | lbl (l : Label)
  | subRspImm (imm : Int)
  | addRspImm (imm : Int)
  | callR (r : Reg)
  | ret
deriving DecidableEq, Repr

/-- Modelled from the spec (§4.8/§6, `rts.rs` not in the sources): the
numeric status codes; exact values are an ABI choice fixed at build
time, `OKAY = 0`. -/
def OKAY : Int := 0

/-- `UNDERFLOW` status code. -/
def UNDERFLOW : Int := 1

/-- `OVERFLOW` status code. -/
def OVERFLOW : Int := 2

/-- `Compiler::emit_prologue`: save the four callee-saved registers,
then `pointer = mem_start = first arg`, `mem_limit = mem_start + second
arg`, `rts = third arg`. -/
def emit_prologue : List Asm :=
  [.push .r12, .push .r13, .push .r14, .push .r15,
   .movRR pointer argReg1, .movRR mem_start argReg1,
   .movRR mem_limit argReg1, .addRR mem_limit argReg2,
   .movRR rtsReg argReg3]

/-- `Compiler::emit_epilogue`: status loads for the three exit labels
and register restoration. -/
def emit_epilogue : List Asm :=
  [.movRI32 .rax OKAY, .jmpL .finish,
   .lbl .underflow, .movRI32 .rax UNDERFLOW, .jmpL .finish,
   .lbl .overflow, .movRI32 .rax OVERFLOW,
   .lbl .finish, .pop .r15, .pop .r14, .pop .r13, .pop .r12, .ret]

/-- `Compiler::rts_call`: load the callback address, pass the RTS
pointer in the first-argument register, reserve the ABI shadow space,
call, restore the stack. -/
def rts_call (f : RtsFun) : List Asm :=
  [.movRFun .rax f, .movRR argReg1 rtsReg,
   .subRspImm 0x28, .callR .rax, .addRspImm 0x28]

/-- `Compiler::load_constant`: a 32-bit move when the count fits in
`i32`, otherwise a 64-bit move. -/
def load_constant (count : Nat) : List Asm :=
  if count < 2 ^ 31 then [.movRI32 .rax count] else [.movRI64 .rax count]

/-- `Compiler::load_pos_offset`: load the offset, and emit the
overflow bounds test `(mem_limit - pointer) ≤ rax → overflow` only when
compiling checked and the analyzer has not proved the access safe. -/
def load_pos_offset (checked : Bool) (offset : Nat) (proved : Bool) : List Asm :=
  load_constant offset ++
    (if checked ∧ ¬ proved then
      [.movRR .rcx mem_limit, .subRR .rcx pointer, .cmpRR .rcx .rax,
       .jleL .overflow]
    else [])

/-- `Compiler::load_neg_offset`: as `load_pos_offset`, with the
underflow test `(pointer - mem_start) < rax → underflow`. -/
def load_neg_offset (checked : Bool) (offset : Nat) (proved : Bool) : List Asm :=
  load_constant offset ++
    (if checked ∧ ¬ proved then
      [.movRR .rcx pointer, .subRR .rcx mem_start, .cmpRR .rcx .rax,
       .jlL .underflow]
    else [])

mutual

/-- `Compiler::compile_statement`: per-statement emission.  The bounds
analyzer (`jit/analysis.rs`, not in the sources) is modelled from the
spec as an oracle `orc` of answers consumed one per
`move_right`/`move_left`/`check_right`/`check_left` query (position
`ctr`); `reset_*`/`enter_loop`/`leave_loop` consume no answers and emit
nothing.  `lb` numbers the local/dynamic labels in allocation order.
The `JumpZero`/`JumpNotZero` arms panic in the source (unreachable on
tree IR) and emit nothing here. -/
def emitStmt (checked : Bool) (orc : Nat → Bool) :
    Statement → Nat → Nat → List Asm × Nat × Nat
  | .Instr (.Right count), ctr, lb =>
    (load_pos_offset checked count (orc ctr) ++ [.addRR pointer .rax],
     ctr + 1, lb)
  | .Instr (.Left count), ctr, lb =>
    (load_neg_offset checked count (orc ctr) ++ [.subRR pointer .rax],
     ctr + 1, lb)
  | .Instr (.Add count), ctr, lb => ([.addBytePtrImm pointer count], ctr, lb)
  | .Instr .In, ctr, lb =>
    (rts_call .read ++ [.movByteMR pointer .rax], ctr, lb)
  | .Instr .Out, ctr, lb =>
    ([.xorRR .rdx .rdx, .movByteRM .rdx pointer] ++ rts_call .write, ctr, lb)
  | .Instr .SetZero, ctr, lb => ([.movBytePtrImm pointer 0], ctr, lb)
  | .Instr (.FindZeroRight skip), ctr, lb =>
    ([.jmpL (.localLbl (lb + 1)), .lbl (.localLbl lb)] ++
      load_pos_offset checked skip false ++
      [.addRR pointer .rax, .lbl (.localLbl (lb + 1)),
       .cmpBytePtrImm pointer 0, .jnzL (.localLbl lb)], ctr, lb + 2)
  | .Instr (.FindZeroLeft skip), ctr, lb =>
    ([.jmpL (.localLbl (lb + 1)), .lbl (.localLbl lb)] ++
      load_neg_offset checked skip false ++
      [.subRR pointer .rax, .lbl (.localLbl (lb + 1)),
       .cmpBytePtrImm pointer 0, .jnzL (.localLbl lb)], ctr, lb + 2)
  | .Instr (.OffsetAddRight offset), ctr, lb =>
    ([.cmpBytePtrImm pointer 0, .jzL (.localLbl lb)] ++
      load_pos_offset checked offset (orc ctr) ++
      [.movByteRM .rcx pointer, .movBytePtrImm pointer 0,
       .addBytePtrIdxR pointer .rax .rcx, .lbl (.localLbl lb)],
     ctr + 1, lb + 1)
  | .Instr (.OffsetAddLeft offset), ctr, lb =>
    ([.cmpBytePtrImm pointer 0, .jzL (.localLbl lb)] ++
      load_neg_offset checked offset (orc ctr) ++
      [.movByteRM .rcx pointer, .movBytePtrImm pointer 0, .negR .rax,
       .addBytePtrIdxR pointer .rax .rcx, .lbl (.localLbl lb)],
     ctr + 1, lb + 1)
  | .Instr (.JumpZero _), ctr, lb => ([], ctr, lb)
  | .Instr (.JumpNotZero _), ctr, lb => ([], ctr, lb)
  | .Loop body, ctr, lb =>
    let r := emitList checked orc body ctr (lb + 2)
    ([.jmpL (.localLbl (lb + 1)), .lbl (.localLbl lb)] ++ r.1 ++
      [.lbl (.localLbl (lb + 1)), .cmpBytePtrImm pointer 0,
       .jnzL (.localLbl lb)], r.2)

/-- `Compiler::compile`: emit each statement in order, threading the
analyzer and label state. -/
def emitList (checked : Bool) (orc : Nat → Bool) :
    List Statement → Nat → Nat → List Asm × Nat × Nat
  | [], ctr, lb => ([], ctr, lb)
  | s :: rest, ctr, lb =>
    let r1 := emitStmt checked orc s ctr lb
    let r2 := emitList checked orc rest r1.2.1 r1.2.2
    (r1.1 ++ r2.1, r2.2)

end

/-- Modelled from the spec (§4.7, `jit/analysis.rs` not in the
sources): the `NoAnalysis` variant answers `false` for every predicate. -/
def noAnalysis : Nat → Bool := fun _ => false

/-- `jit::compile`: checked mode runs the abstract-interpreter
analyzer (kept abstract as the oracle `orc`); unchecked mode selects
`NoAnalysis` and `checked = false`, whatever analyzer the caller had. -/
def jit_compile (prog : List Statement) (checked : Bool)
    (orc : Nat → Bool) : List Asm :=
  if checked then
    emit_prologue ++ (emitList true orc prog 0 0).1 ++ emit_epilogue
  else
    emit_prologue ++ (emitList false noAnalysis prog 0 0).1 ++ emit_epilogue

/-- An instruction belonging to a pointer-range test: the comparison
and conditional exit of `load_pos_offset`/`load_neg_offset` (the only
`cmp reg,reg`, `jle`, `jl` the emitter can produce). -/
def isBoundsCheckJump : Asm → Bool
  | .jleL _ => true
  | .jlL _ => true
  | .cmpRR _ _ => true
  | _ => false

theorem emit_unchecked_no_checks (orc : Nat → Bool) :
    (∀ s : Statement, ∀ ctr lb,
      ((emitStmt false orc s ctr lb).1.all fun a => !isBoundsCheckJump a) = true) ∧
    (∀ l : List Statement, ∀ ctr lb,
      ((emitList false orc l ctr lb).1.all fun a => !isBoundsCheckJump a) = true) := by
  apply statement_mutual_ind
  · intro i ctr lb
    cases i <;>
      simp [emitStmt, load_pos_offset, load_neg_offset, load_constant,
        rts_call, isBoundsCheckJump, List.all_append] <;>
      split <;> simp [isBoundsCheckJump]
  · intro body ih ctr lb
    simp [emitStmt, List.all_append, isBoundsCheckJump]
    intro x hx
    have hax := List.all_eq_true.mp (ih ctr (lb + 2)) x hx
    simpa [isBoundsCheckJump] using hax
  · intro ctr lb
    simp [emitList]
  · intro s rest ihs ihr ctr lb
    simp only [emitList, List.all_append, Bool.and_eq_true]
    exact ⟨ihs ctr lb, ihr _ _⟩

/-- C8: `jit::compile` with `checked = false` selects the `NoAnalysis`
analyzer, and the emitted code contains no pointer-range test — no
`cmp reg,reg` and no conditional exit to `overflow`/`underflow` — for
any instruction; moreover the unchecked emission is the same whatever
the analyzer would have answered. -/
theorem jit_unchecked_elides_checks (prog : List Statement)
    (orc orc' : Nat → Bool) :
    jit_compile prog false orc = jit_compile prog false noAnalysis ∧
    ((jit_compile prog false orc).all fun a => !isBoundsCheckJump a) = true ∧
    (emitList false orc prog 0 0).1 = (emitList false orc' prog 0 0).1 := by
  refine ⟨rfl, ?_, ?_⟩
  · show ((emit_prologue ++ (emitList false noAnalysis prog 0 0).1 ++
        emit_epilogue).all fun a => !isBoundsCheckJump a) = true
    simp only [List.all_append, Bool.and_eq_true]
    refine ⟨⟨by simp [emit_prologue, isBoundsCheckJump], ?_⟩,
      by simp [emit_epilogue, isBoundsCheckJump]⟩
    exact (emit_unchecked_no_checks noAnalysis).2 prog 0 0
  · have h : ∀ orc₁ : Nat → Bool,
        (∀ s : Statement, ∀ ctr lb,
          emitStmt false orc₁ s ctr lb = emitStmt false noAnalysis s ctr lb) ∧
        (∀ l : List Statement, ∀ ctr lb,
          emitList false orc₁ l ctr lb = emitList false noAnalysis l ctr lb) := by
      intro orc₁
      apply statement_mutual_ind
      · intro i ctr lb
        cases i <;> simp [emitStmt, load_pos_offset, load_neg_offset]
      · intro body ih ctr lb
        simp only [emitStmt]
        rw [ih ctr (lb + 2)]
      · intro ctr lb
        rfl
      · intro s rest ihs ihr ctr lb
        simp only [emitList]
        rw [ihs ctr lb, ihr]
    rw [(h orc).2 prog 0 0, (h orc').2 prog 0 0]

/-- Every `call` in the block is the `rts_call` shim's `call rax`,
preceded by the stack reservation and by `mov argReg1, rts`. -/
def GoodCalls (code : List Asm) : Prop :=
  ∀ j r, code[j]? = some (.callR r) → r = .rax ∧ 2 ≤ j ∧
    code[j - 1]? = some (.subRspImm 0x28) ∧
    code[j - 2]? = some (.movRR argReg1 rtsReg)

theorem goodCalls_append {A B : List Asm} (hA : GoodCalls A)
    (hB : GoodCalls B) : GoodCalls (A ++ B) := by
  intro j r h
  rw [List.getElem?_append] at h
  by_cases hj : j < A.length
  · rw [if_pos hj] at h
    obtain ⟨hr, h2, h1', h2'⟩ := hA j r h
    refine ⟨hr, h2, ?_, ?_⟩
    · rw [List.getElem?_append, if_pos (by omega)]
      exact h1'
    · rw [List.getElem?_append, if_pos (by omega)]
      exact h2'
  · rw [if_neg hj] at h
    obtain ⟨hr, h2, h1', h2'⟩ := hB (j - A.length) r h
    refine ⟨hr, by omega, ?_, ?_⟩
    · rw [List.getElem?_append, if_neg (by omega),
        show j - 1 - A.length = j - A.length - 1 by omega]
      exact h1'
    · rw [List.getElem?_append, if_neg (by omega),
        show j - 2 - A.length = j - A.length - 2 by omega]
      exact h2'

theorem goodCalls_of_no_call {code : List Asm}
    (h : ∀ x ∈ code, ∀ r, x ≠ .callR r) : GoodCalls code := by
  intro j r hj
  obtain ⟨hlt, hv⟩ := List.getElem?_eq_some.mp hj
  exact absurd hv (h code[j] (code.getElem_mem hlt) r)

theorem rts_call_good (f : RtsFun) : GoodCalls (rts_call f) := by
  intro j r h
  match j with
  | 3 =>
    refine ⟨?_, by omega, rfl, rfl⟩
    have : Asm.callR .rax = .callR r := Option.some.inj h
    cases this
    rfl
  | 0 => exact absurd h (by simp [rts_call])
  | 1 => exact absurd h (by simp [rts_call])
  | 2 => exact absurd h (by simp [rts_call])
  | 4 => exact absurd h (by simp [rts_call])
  | n + 5 => exact absurd h (by simp [rts_call])

theorem load_pos_offset_no_call (checked : Bool) (n : Nat) (p : Bool) :
    ∀ x ∈ load_pos_offset checked n p, ∀ r, x ≠ .callR r := by
  intro x hx r
  rw [load_pos_offset] at hx
  rw [load_constant] at hx
  rcases List.mem_append.mp hx with h | h
  · split at h <;> simp only [List.mem_singleton] at h <;> simp [h]
  · split at h
    · fin_cases h <;> simp
    · exact absurd h (by simp)

theorem load_neg_offset_no_call (checked : Bool) (n : Nat) (p : Bool) :
    ∀ x ∈ load_neg_offset checked n p, ∀ r, x ≠ .callR r := by
  intro x hx r
  rw [load_neg_offset] at hx
  rw [load_constant] at hx
  rcases List.mem_append.mp hx with h | h
  · split at h <;> simp only [List.mem_singleton] at h <;> simp [h]
  · split at h
    · fin_cases h <;> simp
    · exact absurd h (by simp)

/-- All code the emitter produces satisfies `GoodCalls`. -/
theorem emit_goodCalls (checked : Bool) (orc : Nat → Bool) :
    (∀ s : Statement, ∀ ctr lb, GoodCalls (emitStmt checked orc s ctr lb).1) ∧
    (∀ l : List Statement, ∀ ctr lb, GoodCalls (emitList checked orc l ctr lb).1) := by
  apply statement_mutual_ind
  · intro i ctr lb
    cases i with
    | Right n =>
      exact goodCalls_of_no_call (by
        intro x hx r
        rcases List.mem_append.mp hx with h | h
        · exact load_pos_offset_no_call checked n (orc ctr) x h r
        · fin_cases h <;> simp)
    | Left n =>
      exact goodCalls_of_no_call (by
        intro x hx r
        rcases List.mem_append.mp hx with h | h
        · exact load_neg_offset_no_call checked n (orc ctr) x h r
        · fin_cases h <;> simp)
    | Add d => exact goodCalls_of_no_call (by intro x hx r; fin_cases hx <;> simp)
    | In =>
      exact goodCalls_append (rts_call_good .read)
        (goodCalls_of_no_call (by intro x hx r; fin_cases hx <;> simp))
    | Out =>
      exact goodCalls_append
        (goodCalls_of_no_call (by intro x hx r; fin_cases hx <;> simp))
        (rts_call_good .write)
    | SetZero => exact goodCalls_of_no_call (by intro x hx r; fin_cases hx <;> simp)
    | FindZeroRight k =>
      exact goodCalls_of_no_call (by
        intro x hx r
        rcases List.mem_append.mp hx with h | h
        · rcases List.mem_append.mp h with h' | h'
          · fin_cases h' <;> simp
          · exact load_pos_offset_no_call checked k false x h' r
        · fin_cases h <;> simp)
    | FindZeroLeft k =>
      exact goodCalls_of_no_call (by
        intro x hx r
        rcases List.mem_append.mp hx with h | h
        · rcases List.mem_append.mp h with h' | h'
          · fin_cases h' <;> simp
          · exact load_neg_offset_no_call checked k false x h' r
        · fin_cases h <;> simp)
    | OffsetAddRight k =>
      exact goodCalls_of_no_call (by
        intro x hx r
        rcases List.mem_append.mp hx with h | h
        · rcases List.mem_append.mp h with h' | h'
          · fin_cases h' <;> simp
          · exact load_pos_offset_no_call checked k (orc ctr) x h' r
        · fin_cases h <;> simp)
    | OffsetAddLeft k =>
      exact goodCalls_of_no_call (by
        intro x hx r
        rcases List.mem_append.mp hx with h | h
        · rcases List.mem_append.mp h with h' | h'
          · fin_cases h' <;> simp
          · exact load_neg_offset_no_call checked k (orc ctr) x h' r
        · fin_cases h <;> simp)
    | JumpZero a => exact goodCalls_of_no_call (by intro x hx r; exact absurd hx (by simp [emitStmt]))
    | JumpNotZero a => exact goodCalls_of_no_call (by intro x hx r; exact absurd hx (by simp [emitStmt]))
  · intro body ih ctr lb
    show GoodCalls ([.jmpL (.localLbl (lb + 1)), .lbl (.localLbl lb)] ++
      (emitList checked orc body ctr (lb + 2)).1 ++
      [.lbl (.localLbl (lb + 1)), .cmpBytePtrImm pointer 0,
       .jnzL (.localLbl lb)])
    exact goodCalls_append
      (goodCalls_append
        (goodCalls_of_no_call (by intro x hx r; fin_cases hx <;> simp))
        (ih ctr (lb + 2)))
      (goodCalls_of_no_call (by intro x hx r; fin_cases hx <;> simp))
  · intro ctr lb
    exact goodCalls_of_no_call (by intro x hx r; exact absurd hx (by simp [emitList]))
  · intro s rest ihs ihr ctr lb
    show GoodCalls ((emitStmt checked orc s ctr lb).1 ++
      (emitList checked orc rest (emitStmt checked orc s ctr lb).2.1
        (emitStmt checked orc s ctr lb).2.2).1)
    exact goodCalls_append (ihs ctr lb) (ihr _ _)

/-- C9: the emitted function takes its three arguments — head pointer,
tape length in bytes, RTS pointer, in that order — in the convention's
integer-argument registers: the prologue (the first 9 emitted
instructions) initializes `pointer` and `mem_start` from the
first-argument register, `mem_limit` as `mem_start` plus the
second-argument register, and `rts` from the third-argument register;
and every RTS call shim passes the RTS pointer in the first-argument
register of that same convention (`mov argReg1, rts` two instructions
before each `call`). -/
theorem jit_calling_convention (prog : List Statement) (checked : Bool)
    (orc : Nat → Bool) :
    (jit_compile prog checked orc).take 9 = emit_prologue ∧
    emit_prologue = [.push .r12, .push .r13, .push .r14, .push .r15,
      .movRR pointer argReg1, .movRR mem_start argReg1,
      .movRR mem_limit argReg1, .addRR mem_limit argReg2,
      .movRR rtsReg argReg3] ∧
    (∀ f, rts_call f = [.movRFun .rax f, .movRR argReg1 rtsReg,
      .subRspImm 0x28, .callR .rax, .addRspImm 0x28]) ∧
    (∀ j r, (jit_compile prog checked orc)[j]? = some (.callR r) →
      r = .rax ∧
      (jit_compile prog checked orc)[j - 1]? = some (.subRspImm 0x28) ∧
      (jit_compile prog checked orc)[j - 2]? = some (.movRR argReg1 rtsReg)) := by
  have hgood : GoodCalls (jit_compile prog checked orc) := by
    rw [jit_compile]
    split
    · rw [List.append_assoc]
      exact goodCalls_append
        (goodCalls_of_no_call (by intro x hx r; fin_cases hx <;> simp))
        (goodCalls_append ((emit_goodCalls true orc).2 prog 0 0)
          (goodCalls_of_no_call (by intro x hx r; fin_cases hx <;> simp)))
    · rw [List.append_assoc]
      exact goodCalls_append
        (goodCalls_of_no_call (by intro x hx r; fin_cases hx <;> simp))
        (goodCalls_append ((emit_goodCalls false noAnalysis).2 prog 0 0)
          (goodCalls_of_no_call (by intro x hx r; fin_cases hx <;> simp)))
  refine ⟨?_, rfl, fun f => rfl, fun j r h => ?_⟩
  · rw [jit_compile]
    split <;>
    · rw [List.append_assoc]
      exact List.take_left' rfl
  · obtain ⟨hr, h2, h1', h2'⟩ := hgood j r h
    exact ⟨hr, h1', h2'⟩

/-- Witness for C9 on the one-statement program `[In]` in unchecked
mode: its single `call` sits at index 12, preceded by the stack
reservation at 11 and `mov argReg1, rts` at 10. -/
theorem jit_calling_convention_witness :
    (jit_compile [.Instr .In] false noAnalysis)[12]? = some (.callR .rax) ∧
    (jit_compile [.Instr .In] false noAnalysis)[11]? =
      some (.subRspImm 0x28) ∧
    (jit_compile [.Instr .In] false noAnalysis)[10]? =
      some (.movRR argReg1 rtsReg) := by
  have hc : (jit_compile [.Instr .In] false noAnalysis)[12]? =
      some (.callR .rax) := by
    show (emit_prologue ++ (emitList false noAnalysis [.Instr .In] 0 0).1 ++
      emit_epilogue)[12]? = some (.callR .rax)
    simp [emit_prologue, emit_epilogue, emitList, emitStmt, rts_call]
  have h := (jit_calling_convention [.Instr .In] false noAnalysis).2.2.2 12 .rax hc
  exact ⟨hc, h.2.1, h.2.2⟩

/-- Shallow embedding of the machine code emitted for
`OffsetAddRight(k)` (`jit/compiler.rs`): `cmp BYTE [pointer], 0; jz
skip` branches over the whole block — bounds check included — when the
current cell is zero; otherwise `load_pos_offset` exits through
`overflow` when checked and unproved and the limit test fails, and the
data path runs `cl ← [pointer]; [pointer] ← 0; [pointer + rax] += cl`. -/
def jitOffsetAddRight (checked proved : Bool) (k : Nat) (s : State) :
    Except Error State :=
  if s.load = 0 then .ok s
  else if checked ∧ ¬ proved ∧ s.tape.length - s.head ≤ k then
    .error .PointerOverflow
  else
    let v := s.load
    let s' := s.store 0
    let t := s'.tape.set (s'.head + k) ((s'.tape.getD (s'.head + k) 0 + v) % 256)
    .ok { s' with tape := t }

/-- Shallow embedding of the code emitted for `OffsetAddLeft(k)`:
as `jitOffsetAddRight` with the underflow test
`(pointer - mem_start) < rax` and `rax` negated before the indexed add. -/
def jitOffsetAddLeft (checked proved : Bool) (k : Nat) (s : State) :
    Except Error State :=
  if s.load = 0 then .ok s
  else if checked ∧ ¬ proved ∧ s.head < k then
    .error .PointerUnderflow
  else
    let v := s.load
    let s' := s.store 0
    let t := s'.tape.set (s'.head - k) ((s'.tape.getD (s'.head - k) 0 + v) % 256)
    .ok { s' with tape := t }

/-- C10: when the current cell is 0, `OffsetAddRight(k)` and
`OffsetAddLeft(k)` are complete no-ops in every backend — the peephole
tree interpreter and the flat dispatcher return `Ok` with the
configuration (tape, head, input, output) unchanged, and the JIT block
(checked or not) branches over its entire body including the bounds
check — regardless of whether `head ± k` is in range: the out-of-range
failure can only occur on a non-zero cell. -/
theorem offset_add_zero_cell_noop (c : Config) (s : State) (k pc : Nat)
    (checked proved : Bool) (hz : c.load = 0) (hsz : s.load = 0) :
    interpInstr (.OffsetAddRight k) c = some (.ok c) ∧
    interpInstr (.OffsetAddLeft k) c = some (.ok c) ∧
    stepF (.OffsetAddRight k) pc c = some (.inl (pc + 1, c)) ∧
    stepF (.OffsetAddLeft k) pc c = some (.inl (pc + 1, c)) ∧
    jitOffsetAddRight checked proved k s = .ok s ∧
    jitOffsetAddLeft checked proved k s = .ok s := by
  have hz' : c.state.load = 0 := hz
  refine ⟨?_, ?_, ?_, ?_, ?_, ?_⟩
  · simp [interpInstr, hz']
  · simp [interpInstr, hz']
  · simp [stepF, hz, hz']
  · simp [stepF, hz, hz']
  · rw [jitOffsetAddRight, if_pos hsz]
  · rw [jitOffsetAddLeft, if_pos hsz]

/-- Witness for C10: with a zero cell and `k = 7` far out of range on a
2-cell tape, all three backends leave everything unchanged. -/
theorem offset_add_zero_cell_noop_witness :
    interpInstr (.OffsetAddRight 7) ⟨⟨[0, 3], 0⟩, [5], [9]⟩ =
      some (.ok ⟨⟨[0, 3], 0⟩, [5], [9]⟩) ∧
    stepF (.OffsetAddLeft 7) 4 ⟨⟨[0, 3], 0⟩, [5], [9]⟩ =
      some (.inl (5, ⟨⟨[0, 3], 0⟩, [5], [9]⟩)) ∧
    jitOffsetAddRight true false 7 ⟨[0, 3], 0⟩ = .ok ⟨[0, 3], 0⟩ := by
  have h := offset_add_zero_cell_noop ⟨⟨[0, 3], 0⟩, [5], [9]⟩ ⟨[0, 3], 0⟩ 7 4
    true false (by decide) (by decide)
  exact ⟨h.1, h.2.2.2.1, h.2.2.2.2.1⟩

end BfRs
